import Mathlib

/-!
Verification of the knowledge-miner corpus indexing engine.

Shallow embedding of `src/app/indexer.py` (walker, fingerprinter, reconciler,
path classifier) together with the catalog row shape of `src/app/models.py`.

Modelling conventions:
* The filesystem is a finite list of entries (`FSEntry`), each carrying its
  relative path as a component list, a directory flag, stat metadata, its byte
  content (abstracted to a `Nat`), and a flag `hashOk` saying whether reading
  the file for hashing succeeds (`False` models an `OSError`/`PermissionError`
  raised by `compute_file_hash`).
* SHA-256 is idealised as an injective digest of the content, so the digest is
  the abstract content itself; two files have equal digests iff their bytes are
  equal (the collision-resistance assumption of the design).
* Python's `sorted(root.rglob("*"))` is a deterministic stable sort of `Path`
  objects; `PurePath` ordering compares the parts tuple (component lists,
  components by code point), not the joined path string — so `a/b.md` sorts
  before `a.md`.  It is modelled with `List.insertionSort` over `partsLe`,
  which is also a stable sort and therefore produces the same sequence.
* The SQLAlchemy session is modelled as an explicit list of rows (`FileRec`);
  `query(File).filter_by(file_path=...).first()` is `List.find?`, in-place
  mutation of the found row is `updateFirst`, `session.add` appends, and the
  delete loop is a filter.  The `files.file_path` column is declared `unique`
  in `models.py`, which justifies the `Nodup` hypotheses on catalog keys.
* `datetime.now(timezone.utc)` is modelled by an explicit `now : Nat`
  parameter of a run.
-/

namespace KnowledgeMiner

/-! ## String primitives

Python string operations, re-implemented over the character list of a `String`
(Lean's own `String.toLower`, `String.startsWith`, `String.splitOn` and string
comparison are iterator-based and equal to these on all inputs). -/

/-- Python string `lower()` (ASCII range, which is all that file extensions
use). -/
def strToLower (s : String) : String := String.mk (s.data.map Char.toLower)

/-- Python `str.startswith`. -/
def strStartsWith (s pre : String) : Bool := s.data.take pre.data.length == pre.data

/-- Strict lexicographic comparison of character lists by code point:
Python's string `<`. -/
def charListLt : List Char → List Char → Bool
  | [], [] => false
  | [], _ :: _ => true
  | _ :: _, [] => false
  | a :: as, b :: bs => decide (a < b) || (a == b && charListLt as bs)

/-- Python string `<` (lexicographic by code point). -/
def strLt (a b : String) : Bool := charListLt a.data b.data

/-- Non-strict lexicographic order on component tuples (components compared
as code-point strings): the order Python uses to compare `Path` objects —
`PurePath` ordering compares the (case-normalized, here case-preserved POSIX)
parts tuple, not the joined path string. -/
def partsLe : List String → List String → Bool
  | [], _ => true
  | _ :: _, [] => false
  | a :: as, b :: bs => strLt a b || (a == b && partsLe as bs)

/-- Split a character list on `/`. -/
def splitSlash (acc : List Char) : List Char → List String
  | [] => [String.mk acc.reverse]
  | c :: rest =>
    if c = '/' then String.mk acc.reverse :: splitSlash [] rest
    else splitSlash (c :: acc) rest

/-! ## fnmatch-style glob matching (Python `fnmatch.fnmatch`, POSIX case) -/

/-- Scan the body of a `[...]` character class up to the closing `]`,
returning the class content and the remainder of the pattern.  `none` when no
closing `]` exists (then `[` is treated as a literal, as `fnmatch` does). -/
def scanClass (acc : List Char) : List Char → Option (List Char × List Char)
  | [] => none
  | ']' :: rest => some (acc.reverse, rest)
  | c :: rest => scanClass (c :: acc) rest

/-- Parse a character class starting just after `[`: an optional leading `!`
negates, a `]` in first content position is literal. -/
def parseClass (cs : List Char) : Option (Bool × List Char × List Char) :=
  match cs with
  | '!' :: rest =>
    (match rest with
     | ']' :: rest2 => (scanClass [']'] rest2).map (fun r => (true, r.1, r.2))
     | _ => (scanClass [] rest).map (fun r => (true, r.1, r.2)))
  | ']' :: rest2 => (scanClass [']'] rest2).map (fun r => (false, r.1, r.2))
  | _ => (scanClass [] cs).map (fun r => (false, r.1, r.2))

/-- Does character `c` match the (already scanned) content of a character
class?  `a-z` denotes a range; a `-` in first or last position is literal. -/
def classHas (c : Char) : List Char → Bool
  | [] => false
  | lo :: '-' :: hi :: rest => (lo ≤ c && c ≤ hi) || classHas c rest
  | x :: rest => (c == x) || classHas c rest

/-- Fuel-indexed glob matcher: `*` matches any sequence, `?` any single
character, `[...]` a character class, anything else itself.  The fuel is a
termination device only; `fnmatch` always supplies enough. -/
def globMatchF : Nat → List Char → List Char → Bool
  | 0, _, _ => false
  | fuel + 1, p, s =>
    match p, s with
    | [], s => s.isEmpty
    | '*' :: ps, s =>
      globMatchF fuel ps s ||
        (match s with
         | [] => false
         | _ :: s2 => globMatchF fuel ('*' :: ps) s2)
    | '?' :: ps, s =>
      (match s with
       | [] => false
       | _ :: s2 => globMatchF fuel ps s2)
    | '[' :: ps, s =>
      (match parseClass ps with
       | some (neg, stuff, rest) =>
         (match s with
          | [] => false
          | c :: s2 => (classHas c stuff != neg) && globMatchF fuel rest s2)
       | none =>
         (match s with
          | [] => false
          | c :: s2 => (c == '[') && globMatchF fuel ps s2))
    | pc :: ps, s =>
      (match s with
       | [] => false
       | c :: s2 => (c == pc) && globMatchF fuel ps s2)

/-- Python `fnmatch.fnmatch(name, pattern)` on a POSIX system (where
`os.path.normcase` is the identity). -/
def fnmatch (name pattern : String) : Bool :=
  globMatchF (pattern.length + name.length + 1) pattern.data name.data

/-! ## Path classifier (`indexer.py` lines 20-64) -/

/-- Constant `DEFAULT_SKIP_PATTERNS` (indexer.py line 21). -/
def DEFAULT_SKIP_PATTERNS : List String := ["~$*", "*.tmp", "Thumbs.db", ".DS_Store"]

/-- Constant `DEFAULT_SUPPORTED_EXTENSIONS` (indexer.py line 22). -/
def DEFAULT_SUPPORTED_EXTENSIONS : List String :=
  [".md", ".docx", ".xlsx", ".pdf", ".vsdx", ".txt", ".csv"]

/-- Function `_should_skip` (indexer.py lines 41-46): does the name match any skip
pattern? -/
def should_skip (name : String) (skip_patterns : List String) : Bool :=
  skip_patterns.any (fun pattern => fnmatch name pattern)

/-- Python `pathlib.PurePath.parts` of a relative POSIX path: split on `/`, dropping
empty segments and `.` segments. -/
def pathParts (s : String) : List String :=
  (splitSlash [] s.data).filter (fun p => p ≠ "" && p ≠ ".")

/-- Python `pathlib.PurePath.suffix` of a file name: the substring from the last `.`
on, unless that dot is the first or last character. -/
def nameSuffix (name : String) : String :=
  let cs := name.data
  match ((List.range cs.length).filter (fun i => cs.getD i ' ' == '.')).getLast? with
  | none => ""
  | some i => if 0 < i && i + 1 < cs.length then String.mk (cs.drop i) else ""

/-- Function `determine_corpus_section` (indexer.py lines 49-64). -/
def determine_corpus_section (relative_path : String) : Option String :=
  let parts := pathParts relative_path
  if parts.length ≤ 1 then none
  else some (parts.headD "")

/-! ## Filesystem model and the corpus walker (`walk_corpus`, lines 67-124) -/

/-- One filesystem object under the corpus root.  `path` is the relative path
as components (never empty).  `content` abstracts the file's bytes; `hashOk`
is false when opening/reading the file for hashing raises
`OSError`/`PermissionError`. -/
structure FSEntry where
  path : List String
  isDir : Bool
  size : Nat
  ctime : Nat
  mtime : Nat
  content : Nat
  hashOk : Bool
deriving Repr, DecidableEq

/-- The corpus root: whether `root.is_dir()` holds, and the objects below it. -/
structure CorpusFS where
  rootIsDir : Bool
  entries : List FSEntry
deriving Repr, DecidableEq

/-- Python `str(item.relative_to(root))`: components joined by `/`. -/
def joinPath : List String → String
  | [] => ""
  | [p] => p
  | p :: ps => p ++ "/" ++ joinPath ps

/-- Python `item.name`: the final path component. -/
def fileName (ps : List String) : String := ps.getLastD ""

/-- Python `str(item.parent.relative_to(root)) if item.parent != root else ""`. -/
def parentDir (ps : List String) : String :=
  if ps.length ≤ 1 then "" else joinPath ps.dropLast

/-- The metadata dict yielded by `walk_corpus` (lines 114-124).  `content` and
`hashOk` stand for the `absolute_path` key: they are what dereferencing that
path during later hashing observes. -/
structure FileMeta where
  file_path : String
  file_name : String
  file_extension : String
  file_size_bytes : Nat
  parent_dir : String
  corpus_section : Option String
  created_at : Nat
  modified_at : Nat
  content : Nat
  hashOk : Bool
deriving Repr, DecidableEq

/-- Build the yielded metadata dict for one eligible entry. -/
def toMeta (e : FSEntry) : FileMeta :=
  { file_path := joinPath e.path
    file_name := fileName e.path
    file_extension := strToLower (nameSuffix (fileName e.path))
    file_size_bytes := e.size
    parent_dir := parentDir e.path
    corpus_section := determine_corpus_section (joinPath e.path)
    created_at := e.ctime
    modified_at := e.mtime
    content := e.content
    hashOk := e.hashOk }

/-- Python `sorted(root.rglob("*"))`: `Path` objects compare by their parts
tuple (`PurePath` ordering), so with the root prefix shared the traversal
order is the parts-tuple lexicographic order of the relative paths — e.g.
`a/b.md` sorts before `a.md` because `("a", "b.md") < ("a.md",)`, although
the joined strings compare the other way.  A stable sort is used, matching
`sorted`. -/
def sortEntries (es : List FSEntry) : List FSEntry :=
  es.insertionSort (fun a b => partsLe a.path b.path = true)

/-- Function `walk_corpus` (indexer.py lines 67-124): deterministic sorted traversal,
skipping directories, hidden components, skip-pattern matches, and
unsupported extensions. -/
def walk_corpus (fs : CorpusFS) (skip_patterns supported_extensions : List String) :
    List FileMeta :=
  if fs.rootIsDir then
    (sortEntries fs.entries).filterMap (fun item =>
      if item.isDir then none
      else if item.path.any (fun part => strStartsWith part ".") then none
      else if should_skip (fileName item.path) skip_patterns then none
      else if !supported_extensions.contains (strToLower (nameSuffix (fileName item.path)))
        then none
      else some (toMeta item))
  else []

/-- The walker's acceptance test, as one predicate (the conjunction of the
four `continue` guards of lines 94-109). -/
def eligible (skip_patterns supported_extensions : List String) (e : FSEntry) : Bool :=
  !e.isDir
    && !(e.path.any (fun part => strStartsWith part "."))
    && !(should_skip (fileName e.path) skip_patterns)
    && supported_extensions.contains (strToLower (nameSuffix (fileName e.path)))

/-! ## Fingerprinter (`compute_file_hash`, lines 25-38) -/

/-- Function `compute_file_hash` (lines 25-38): streams the bytes through SHA-256.  The
digest is idealised as the abstract content itself (an injective digest);
`hashOk = false` models a raised `OSError`/`PermissionError`. -/
def compute_file_hash (m : FileMeta) : Except String Nat :=
  if m.hashOk then .ok m.content else .error "I/O error"

/-! ## Catalog model (`models.py` class `File`) -/

/-- One row of the `files` table, with the columns the indexer touches.
Timestamps are abstract `Nat` instants; `file_hash` is nullable in the
schema, hence `Option`. -/
structure FileRec where
  file_path : String
  file_name : String
  file_extension : String
  file_size_bytes : Nat
  parent_dir : String
  corpus_section : Option String
  created_at : Nat
  modified_at : Nat
  indexed_at : Nat
  file_hash : Option Nat
deriving Repr, DecidableEq

/-- In-place mutation of the row returned by `.first()`: replace the first
row with the given key. -/
def updateFirst (catalog : List FileRec) (p : String) (r : FileRec) : List FileRec :=
  match catalog with
  | [] => []
  | x :: xs => if x.file_path == p then r :: xs else x :: updateFirst xs p r

/-- The row as rewritten by the update branch (indexer.py lines 170-178):
every mutable field from the metadata, a fresh `indexed_at`, the new hash;
`file_path` (and row identity) kept. -/
def updatedRec (existing : FileRec) (m : FileMeta) (h : Nat) (now : Nat) : FileRec :=
  { existing with
    file_name := m.file_name
    file_extension := m.file_extension
    file_size_bytes := m.file_size_bytes
    parent_dir := m.parent_dir
    corpus_section := m.corpus_section
    created_at := m.created_at
    modified_at := m.modified_at
    indexed_at := now
    file_hash := some h }

/-- The row built by the insert branch (indexer.py lines 182-193). -/
def newRec (m : FileMeta) (h : Nat) (now : Nat) : FileRec :=
  { file_path := m.file_path
    file_name := m.file_name
    file_extension := m.file_extension
    file_size_bytes := m.file_size_bytes
    parent_dir := m.parent_dir
    corpus_section := m.corpus_section
    created_at := m.created_at
    modified_at := m.modified_at
    indexed_at := now
    file_hash := some h }

/-! ## Catalog reconciler (`index_corpus` lines 127-205, `reindex_changed`
lines 208-276) -/

/-- How the shared per-file body (lines 156-195 resp. 235-272) classifies one
walked record. -/
inductive Classification where
  | hashFailed
  | unchanged
  | updated
  | new
deriving Repr, DecidableEq

/-- The per-file body shared by both sync modes: hash (skipping the file on
failure), look up the row by relative path, then update / insert / leave
untouched by hash comparison. -/
def reconcileOne (now : Nat) (catalog : List FileRec) (m : FileMeta) :
    List FileRec × Classification :=
  match compute_file_hash m with
  | .error _ => (catalog, .hashFailed)
  | .ok h =>
    match catalog.find? (fun r => r.file_path == m.file_path) with
    | some existing =>
      if existing.file_hash == some h then (catalog, .unchanged)
      else (updateFirst catalog m.file_path (updatedRec existing m h now), .updated)
    | none => (catalog ++ [newRec m h now], .new)

/-- Statistics dict of `index_corpus` (line 148). -/
structure Stats where
  new : Nat
  updated : Nat
  unchanged : Nat
  deleted : Nat
  total : Nat
deriving Repr, DecidableEq

/-- Statistics dict of `reindex_changed` (line 229): note there is no
`deleted` key. -/
structure StatsInc where
  new : Nat
  updated : Nat
  unchanged : Nat
  total : Nat
deriving Repr, DecidableEq

/-- Count one classification into the full-mode statistics. -/
def bumpFull (st : Stats) : Classification → Stats
  | .hashFailed => st
  | .unchanged => { st with unchanged := st.unchanged + 1 }
  | .updated => { st with updated := st.updated + 1 }
  | .new => { st with new := st.new + 1 }

/-- Count one classification into the incremental-mode statistics. -/
def bumpInc (st : StatsInc) : Classification → StatsInc
  | .hashFailed => st
  | .unchanged => { st with unchanged := st.unchanged + 1 }
  | .updated => { st with updated := st.updated + 1 }
  | .new => { st with new := st.new + 1 }

/-- One loop iteration of `index_corpus` (lines 151-195): bump `total`, run
the shared body, count the classification. -/
def stepFull (now : Nat) (acc : List FileRec × Stats) (m : FileMeta) :
    List FileRec × Stats :=
  ((reconcileOne now acc.1 m).1,
    bumpFull { acc.2 with total := acc.2.total + 1 } (reconcileOne now acc.1 m).2)

/-- One loop iteration of `reindex_changed` (lines 231-272). -/
def stepInc (now : Nat) (acc : List FileRec × StatsInc) (m : FileMeta) :
    List FileRec × StatsInc :=
  ((reconcileOne now acc.1 m).1,
    bumpInc { acc.2 with total := acc.2.total + 1 } (reconcileOne now acc.1 m).2)

/-- The relative paths seen during a walk (line 154 accumulates `seen_paths`
before the hash attempt, so hash-failed records are seen too). -/
def walkedPaths (fs : CorpusFS) (skip_patterns supported_extensions : List String) :
    List String :=
  (walk_corpus fs skip_patterns supported_extensions).map (fun m => m.file_path)

/-- Function `index_corpus` (indexer.py lines 127-205): full sync.  Walk, upsert each
record, then delete every row whose path was not seen, and return the rows
and statistics committed at line 204. -/
def index_corpus (fs : CorpusFS) (catalog : List FileRec) (now : Nat)
    (skip_patterns supported_extensions : List String) : List FileRec × Stats :=
  let walked := walk_corpus fs skip_patterns supported_extensions
  let seen_paths := walkedPaths fs skip_patterns supported_extensions
  let folded := walked.foldl (stepFull now)
    (catalog, { new := 0, updated := 0, unchanged := 0, deleted := 0, total := 0 })
  let removed := folded.1.filter (fun r => !seen_paths.contains r.file_path)
  (folded.1.filter (fun r => seen_paths.contains r.file_path),
    { folded.2 with deleted := folded.2.deleted + removed.length })

/-- Function `reindex_changed` (indexer.py lines 208-276): incremental sync.  Same
per-file body, no deletion pass, narrower statistics shape. -/
def reindex_changed (fs : CorpusFS) (catalog : List FileRec) (now : Nat)
    (skip_patterns supported_extensions : List String) : List FileRec × StatsInc :=
  let walked := walk_corpus fs skip_patterns supported_extensions
  walked.foldl (stepInc now)
    (catalog, { new := 0, updated := 0, unchanged := 0, total := 0 })

/-- The rows of a catalog holding a given relative path. -/
def recsFor (catalog : List FileRec) (p : String) : List FileRec :=
  catalog.filter (fun r => r.file_path == p)

/-- The keys of a catalog. -/
def catKeys (catalog : List FileRec) : List String :=
  catalog.map (fun r => r.file_path)

/-- Effect of the per-file body on the set of rows holding the processed
record's own path (derived below in `reconcile_fst_recsFor_self`). -/
def keyEffect (now : Nat) (m : FileMeta) (l : List FileRec) : List FileRec :=
  if m.hashOk then
    match l with
    | [] => [newRec m m.content now]
    | r :: rest =>
      if r.file_hash == some m.content then r :: rest
      else updatedRec r m m.content now :: rest
  else l

/-- Catalog evolution of either sync mode: fold the shared per-file body. -/
def foldCat (now : Nat) (cat : List FileRec) (metas : List FileMeta) : List FileRec :=
  metas.foldl (fun c m => (reconcileOne now c m).1) cat

/-! ## Order lemmas for the walk order -/

theorem charListLt_trans : ∀ {a b c : List Char},
    charListLt a b = true → charListLt b c = true → charListLt a c = true
  | [], [], _, h, _ => by simp [charListLt] at h
  | [], _ :: _, [], _, h2 => by simp [charListLt] at h2
  | [], _ :: _, _ :: _, _, _ => rfl
  | _ :: _, [], _, h, _ => by simp [charListLt] at h
  | _ :: _, _ :: _, [], _, h2 => by simp [charListLt] at h2
  | a :: as, b :: bs, c :: cs, h1, h2 => by
    simp only [charListLt, Bool.or_eq_true, Bool.and_eq_true, decide_eq_true_eq,
      beq_iff_eq] at h1 h2 ⊢
    rcases h1 with h1 | ⟨rfl, h1⟩
    · rcases h2 with h2 | ⟨rfl, h2⟩
      · exact Or.inl (lt_trans h1 h2)
      · exact Or.inl h1
    · rcases h2 with h2 | ⟨rfl, h2⟩
      · exact Or.inl h2
      · exact Or.inr ⟨rfl, charListLt_trans h1 h2⟩

theorem charListLt_trichotomy : ∀ (a b : List Char),
    charListLt a b = true ∨ charListLt b a = true ∨ a = b
  | [], [] => Or.inr (Or.inr rfl)
  | [], _ :: _ => Or.inl rfl
  | _ :: _, [] => Or.inr (Or.inl rfl)
  | a :: as, b :: bs => by
    rcases lt_trichotomy a b with h | h | h
    · exact Or.inl (by simp [charListLt, h])
    · subst h
      rcases charListLt_trichotomy as bs with ih | ih | ih
      · exact Or.inl (by simp [charListLt, ih])
      · exact Or.inr (Or.inl (by simp [charListLt, ih]))
      · exact Or.inr (Or.inr (by rw [ih]))
    · exact Or.inr (Or.inl (by simp [charListLt, h]))

theorem strLt_trans {a b c : String} (h1 : strLt a b = true) (h2 : strLt b c = true) :
    strLt a c = true :=
  charListLt_trans h1 h2

theorem strLt_trichotomy (a b : String) :
    strLt a b = true ∨ strLt b a = true ∨ a = b := by
  rcases charListLt_trichotomy a.data b.data with h | h | h
  · exact Or.inl h
  · exact Or.inr (Or.inl h)
  · exact Or.inr (Or.inr (congrArg String.mk h))

theorem partsLe_total : ∀ (a b : List String), partsLe a b = true ∨ partsLe b a = true
  | [], _ => Or.inl rfl
  | _ :: _, [] => Or.inr rfl
  | a :: as, b :: bs => by
    rcases strLt_trichotomy a b with h | h | h
    · exact Or.inl (by simp [partsLe, h])
    · exact Or.inr (by simp [partsLe, h])
    · subst h
      rcases partsLe_total as bs with ih | ih
      · exact Or.inl (by simp [partsLe, ih])
      · exact Or.inr (by simp [partsLe, ih])

theorem partsLe_trans : ∀ {a b c : List String},
    partsLe a b = true → partsLe b c = true → partsLe a c = true
  | [], _, _, _, _ => rfl
  | _ :: _, [], _, h, _ => by simp [partsLe] at h
  | _ :: _, _ :: _, [], _, h2 => by simp [partsLe] at h2
  | a :: as, b :: bs, c :: cs, h1, h2 => by
    simp only [partsLe, Bool.or_eq_true, Bool.and_eq_true, beq_iff_eq] at h1 h2 ⊢
    rcases h1 with h1 | ⟨rfl, h1⟩
    · rcases h2 with h2 | ⟨rfl, h2⟩
      · exact Or.inl (strLt_trans h1 h2)
      · exact Or.inl h1
    · rcases h2 with h2 | ⟨rfl, h2⟩
      · exact Or.inl h2
      · exact Or.inr ⟨rfl, partsLe_trans h1 h2⟩

instance : IsTotal FSEntry (fun a b => partsLe a.path b.path = true) :=
  ⟨fun a b => partsLe_total _ _⟩

instance : IsTrans FSEntry (fun a b => partsLe a.path b.path = true) :=
  ⟨fun _ _ _ => partsLe_trans⟩

/-! ## Catalog plumbing lemmas -/

theorem find?_eq_head?_recsFor (cat : List FileRec) (p : String) :
    cat.find? (fun r => r.file_path == p) = (recsFor cat p).head? := by
  induction cat with
  | nil => rfl
  | cons x xs ih =>
    by_cases h : x.file_path == p
    · simp [List.find?_cons, recsFor, List.filter_cons, h]
    · simp only [List.find?_cons, recsFor, List.filter_cons, h] at *
      simpa using ih

theorem recsFor_append_single (cat : List FileRec) (n : FileRec) (p : String) :
    recsFor (cat ++ [n]) p =
      recsFor cat p ++ (if n.file_path == p then [n] else []) := by
  simp only [recsFor, List.filter_append]
  by_cases h : n.file_path == p <;> simp [List.filter_cons, h]

theorem recsFor_key (cat : List FileRec) (p : String) :
    ∀ r ∈ recsFor cat p, r.file_path = p := by
  intro r hr
  have := List.of_mem_filter hr
  simpa using this

theorem updateFirst_filter_other (p : String) (r : FileRec)
    (q : String → Bool) (hr : r.file_path = p) (hq : q p = false) :
    ∀ cat : List FileRec,
      (updateFirst cat p r).filter (fun x => q x.file_path) =
        cat.filter (fun x => q x.file_path) := by
  intro cat
  induction cat with
  | nil => rfl
  | cons x xs ih =>
    by_cases h : x.file_path == p
    · have hx : x.file_path = p := by simpa using h
      simp [updateFirst, h, List.filter_cons, hq, hr, hx]
    · simp [updateFirst, h, List.filter_cons, ih]

theorem recsFor_updateFirst_self (p : String) (r : FileRec) (hr : r.file_path = p) :
    ∀ cat : List FileRec,
      recsFor (updateFirst cat p r) p =
        match recsFor cat p with
        | [] => []
        | _ :: rest => r :: rest := by
  intro cat
  induction cat with
  | nil => rfl
  | cons x xs ih =>
    by_cases h : x.file_path == p
    · simp [updateFirst, h, recsFor, List.filter_cons, hr]
    · have hb : (x.file_path == p) = false := by simpa using h
      simp only [updateFirst, hb, Bool.false_eq_true, if_false, recsFor,
        List.filter_cons] at ih ⊢
      simpa [hb] using ih

/-! ## Per-file body lemmas -/

theorem reconcile_fst_hashFailed (now : Nat) (cat : List FileRec) (m : FileMeta)
    (h : m.hashOk = false) : reconcileOne now cat m = (cat, .hashFailed) := by
  simp [reconcileOne, compute_file_hash, h]

theorem reconcile_fst_filter_other (now : Nat) (cat : List FileRec) (m : FileMeta)
    (q : String → Bool) (hq : q m.file_path = false) :
    ((reconcileOne now cat m).1).filter (fun x => q x.file_path) =
      cat.filter (fun x => q x.file_path) := by
  cases hOk : m.hashOk
  · simp [reconcile_fst_hashFailed now cat m hOk]
  · rcases hrec : recsFor cat m.file_path with _ | ⟨r, rest⟩
    · have hf : cat.find? (fun r => r.file_path == m.file_path) = none := by
        rw [find?_eq_head?_recsFor, hrec]; rfl
      simp only [reconcileOne, compute_file_hash, hOk, if_true, hf]
      simp [List.filter_append, List.filter_cons, newRec, hq]
    · have hf : cat.find? (fun r => r.file_path == m.file_path) = some r := by
        rw [find?_eq_head?_recsFor, hrec]; rfl
      have hrkey : r.file_path = m.file_path :=
        recsFor_key cat m.file_path r (by rw [hrec]; exact List.mem_cons_self _ _)
      simp only [reconcileOne, compute_file_hash, hOk, if_true, hf]
      by_cases hh : r.file_hash == some m.content
      · simp [hh]
      · have hb : (r.file_hash == some m.content) = false := by simpa using hh
        simp only [hb, Bool.false_eq_true, if_false]
        exact updateFirst_filter_other m.file_path _ q (by simp [updatedRec, hrkey]) hq cat

theorem reconcile_fst_recsFor_self (now : Nat) (cat : List FileRec) (m : FileMeta) :
    recsFor (reconcileOne now cat m).1 m.file_path =
      keyEffect now m (recsFor cat m.file_path) := by
  cases hOk : m.hashOk
  · simp [reconcile_fst_hashFailed now cat m hOk, keyEffect, hOk]
  · rcases hrec : recsFor cat m.file_path with _ | ⟨r, rest⟩
    · have hf : cat.find? (fun r => r.file_path == m.file_path) = none := by
        rw [find?_eq_head?_recsFor, hrec]; rfl
      simp only [reconcileOne, compute_file_hash, hOk, if_true, hf]
      rw [recsFor_append_single, hrec]
      simp [keyEffect, hOk, newRec]
    · have hf : cat.find? (fun r => r.file_path == m.file_path) = some r := by
        rw [find?_eq_head?_recsFor, hrec]; rfl
      have hrkey : r.file_path = m.file_path :=
        recsFor_key cat m.file_path r (by rw [hrec]; exact List.mem_cons_self _ _)
      simp only [reconcileOne, compute_file_hash, hOk, if_true, hf]
      by_cases hh : r.file_hash == some m.content
      · simp [hh, keyEffect, hOk, hrec]
      · have hb : (r.file_hash == some m.content) = false := by simpa using hh
        simp only [hb, Bool.false_eq_true, if_false]
        rw [recsFor_updateFirst_self m.file_path _ (by simp [updatedRec, hrkey]) cat, hrec]
        simp [keyEffect, hOk, hb]

theorem reconcile_snd_eq (now : Nat) (cat : List FileRec) (m : FileMeta) :
    (reconcileOne now cat m).2 =
      if m.hashOk then
        match (recsFor cat m.file_path).head? with
        | none => .new
        | some r => if r.file_hash == some m.content then .unchanged else .updated
      else .hashFailed := by
  cases hOk : m.hashOk
  · simp [reconcile_fst_hashFailed now cat m hOk]
  · rcases hrec : recsFor cat m.file_path with _ | ⟨r, rest⟩
    · have hf : cat.find? (fun r => r.file_path == m.file_path) = none := by
        rw [find?_eq_head?_recsFor, hrec]; rfl
      simp [reconcileOne, compute_file_hash, hOk, hf]
    · have hf : cat.find? (fun r => r.file_path == m.file_path) = some r := by
        rw [find?_eq_head?_recsFor, hrec]; rfl
      by_cases hh : r.file_hash == some m.content
      · simp [reconcileOne, compute_file_hash, hOk, hf, hh]
      · have hb : (r.file_hash == some m.content) = false := by simpa using hh
        simp [reconcileOne, compute_file_hash, hOk, hf, hb]

theorem reconcile_snd_hashFailed_iff (now : Nat) (cat : List FileRec) (m : FileMeta) :
    (reconcileOne now cat m).2 = .hashFailed ↔ m.hashOk = false := by
  rw [reconcile_snd_eq]
  cases hOk : m.hashOk
  · simp
  · rcases (recsFor cat m.file_path).head? with _ | r
    · simp
    · by_cases hh : r.file_hash == some m.content <;> simp [hh]

theorem reconcile_fst_recsFor_len (now : Nat) (cat : List FileRec) (m : FileMeta)
    (p : String) :
    (recsFor cat p).length ≤ (recsFor (reconcileOne now cat m).1 p).length := by
  by_cases hp : m.file_path = p
  · subst hp
    rw [reconcile_fst_recsFor_self]
    unfold keyEffect
    cases hOk : m.hashOk
    · simp
    · rcases recsFor cat m.file_path with _ | ⟨r, rest⟩
      · simp
      · by_cases hh : r.file_hash == some m.content <;> simp [hh]
  · have : ((reconcileOne now cat m).1).filter (fun x => (x.file_path == p)) =
        cat.filter (fun x => (x.file_path == p)) :=
      reconcile_fst_filter_other now cat m (fun s => s == p) (by simpa using hp)
    simp only [recsFor] at *
    rw [this]

/-! ## Statistics bump lemmas -/

theorem bumpFull_total (st : Stats) (c : Classification) : (bumpFull st c).total = st.total := by
  cases c <;> rfl

theorem bumpFull_deleted (st : Stats) (c : Classification) :
    (bumpFull st c).deleted = st.deleted := by
  cases c <;> rfl

theorem bumpFull_sum (st : Stats) (c : Classification) :
    (bumpFull st c).new + (bumpFull st c).updated + (bumpFull st c).unchanged =
      st.new + st.updated + st.unchanged + (if c = .hashFailed then 0 else 1) := by
  cases c <;> simp [bumpFull] <;> omega

theorem bumpFull_unchanged_le (st : Stats) (c : Classification) :
    st.unchanged ≤ (bumpFull st c).unchanged := by
  cases c <;> simp [bumpFull]

theorem bumpInc_total (st : StatsInc) (c : Classification) : (bumpInc st c).total = st.total := by
  cases c <;> rfl

theorem bumpInc_sum (st : StatsInc) (c : Classification) :
    (bumpInc st c).new + (bumpInc st c).updated + (bumpInc st c).unchanged =
      st.new + st.updated + st.unchanged + (if c = .hashFailed then 0 else 1) := by
  cases c <;> simp [bumpInc] <;> omega

theorem bumpInc_unchanged_le (st : StatsInc) (c : Classification) :
    st.unchanged ≤ (bumpInc st c).unchanged := by
  cases c <;> simp [bumpInc]

/-! ## Fold lemmas (catalog part) -/

theorem foldFull_fst (now : Nat) :
    ∀ (metas : List FileMeta) (acc : List FileRec × Stats),
      (metas.foldl (stepFull now) acc).1 = foldCat now acc.1 metas := by
  intro metas
  induction metas with
  | nil => intro acc; rfl
  | cons m ms ih =>
    intro acc
    rw [List.foldl_cons]
    exact ih (stepFull now acc m)

theorem foldInc_fst (now : Nat) :
    ∀ (metas : List FileMeta) (acc : List FileRec × StatsInc),
      (metas.foldl (stepInc now) acc).1 = foldCat now acc.1 metas := by
  intro metas
  induction metas with
  | nil => intro acc; rfl
  | cons m ms ih =>
    intro acc
    rw [List.foldl_cons]
    exact ih (stepInc now acc m)

theorem foldCat_filter_other (now : Nat) (q : String → Bool) :
    ∀ (metas : List FileMeta), (∀ m ∈ metas, q m.file_path = false) →
      ∀ cat, (foldCat now cat metas).filter (fun x => q x.file_path) =
        cat.filter (fun x => q x.file_path) := by
  intro metas
  induction metas with
  | nil => intro _ cat; rfl
  | cons m ms ih =>
    intro h cat
    have h1 : foldCat now cat (m :: ms) = foldCat now ((reconcileOne now cat m).1) ms := rfl
    rw [h1, ih (fun m' hm' => h m' (List.mem_cons_of_mem _ hm')),
      reconcile_fst_filter_other now cat m q (h m (List.mem_cons_self _ _))]

theorem foldCat_recsFor_other (now : Nat) (p : String) (metas : List FileMeta)
    (h : ∀ m ∈ metas, m.file_path ≠ p) (cat : List FileRec) :
    recsFor (foldCat now cat metas) p = recsFor cat p := by
  have := foldCat_filter_other now (fun s => s == p) metas
    (fun m hm => by simpa using h m hm) cat
  simpa [recsFor] using this

theorem foldCat_recsFor (now : Nat) (p : String) :
    ∀ (metas : List FileMeta), ((metas.map (fun m => m.file_path)).Nodup) →
      ∀ cat, recsFor (foldCat now cat metas) p =
        (match metas.find? (fun m => m.file_path == p) with
         | none => recsFor cat p
         | some m => keyEffect now m (recsFor cat p)) := by
  intro metas
  induction metas with
  | nil => intro _ cat; rfl
  | cons m ms ih =>
    intro hNd cat
    have hNd' : (ms.map (fun m => m.file_path)).Nodup := by
      simpa using (List.nodup_cons.mp (by simpa using hNd)).2
    have hnm : m.file_path ∉ ms.map (fun m => m.file_path) :=
      (List.nodup_cons.mp (by simpa using hNd)).1
    have h1 : foldCat now cat (m :: ms) = foldCat now ((reconcileOne now cat m).1) ms := rfl
    by_cases hp : m.file_path = p
    · subst hp
      have hms : ∀ m' ∈ ms, m'.file_path ≠ m.file_path := by
        intro m' hm' heq
        exact hnm (heq ▸ List.mem_map_of_mem _ hm')
      rw [h1, foldCat_recsFor_other now m.file_path ms hms,
        reconcile_fst_recsFor_self]
      simp [List.find?_cons]
    · have hb : (m.file_path == p) = false := by simpa using hp
      have hother : recsFor ((reconcileOne now cat m).1) p = recsFor cat p := by
        have := reconcile_fst_filter_other now cat m (fun s => s == p) (by simpa using hp)
        simpa [recsFor] using this
      rw [h1, ih hNd' _, hother]
      simp [List.find?_cons, hb]

theorem foldCat_recsFor_len (now : Nat) (p : String) :
    ∀ (metas : List FileMeta) (cat : List FileRec),
      (recsFor cat p).length ≤ (recsFor (foldCat now cat metas) p).length := by
  intro metas
  induction metas with
  | nil => intro cat; exact le_refl _
  | cons m ms ih =>
    intro cat
    exact le_trans (reconcile_fst_recsFor_len now cat m p) (ih _)

/-! ## Fold lemmas (statistics part) -/

theorem foldFull_total (now : Nat) :
    ∀ (metas : List FileMeta) (acc : List FileRec × Stats),
      (metas.foldl (stepFull now) acc).2.total = acc.2.total + metas.length := by
  intro metas
  induction metas with
  | nil => intro acc; simp
  | cons m ms ih =>
    intro acc
    rw [List.foldl_cons, ih (stepFull now acc m)]
    have : (stepFull now acc m).2.total = acc.2.total + 1 := by
      simp [stepFull, bumpFull_total]
    rw [this]
    simp
    omega

theorem foldFull_deleted (now : Nat) :
    ∀ (metas : List FileMeta) (acc : List FileRec × Stats),
      (metas.foldl (stepFull now) acc).2.deleted = acc.2.deleted := by
  intro metas
  induction metas with
  | nil => intro acc; rfl
  | cons m ms ih =>
    intro acc
    rw [List.foldl_cons, ih (stepFull now acc m)]
    simp [stepFull, bumpFull_deleted]

theorem foldFull_sum (now : Nat) :
    ∀ (metas : List FileMeta) (acc : List FileRec × Stats),
      (metas.foldl (stepFull now) acc).2.new + (metas.foldl (stepFull now) acc).2.updated +
          (metas.foldl (stepFull now) acc).2.unchanged =
        acc.2.new + acc.2.updated + acc.2.unchanged +
          metas.countP (fun m => m.hashOk) := by
  intro metas
  induction metas with
  | nil => intro acc; simp
  | cons m ms ih =>
    intro acc
    rw [List.foldl_cons, ih (stepFull now acc m)]
    have hstep : (stepFull now acc m).2.new + (stepFull now acc m).2.updated +
        (stepFull now acc m).2.unchanged =
        acc.2.new + acc.2.updated + acc.2.unchanged + (if m.hashOk then 1 else 0) := by
      cases hOk : m.hashOk
      · have hc : (reconcileOne now acc.1 m).2 = .hashFailed :=
          (reconcile_snd_hashFailed_iff now acc.1 m).mpr hOk
        simp [stepFull, hc, bumpFull]
      · have hne : ¬((reconcileOne now acc.1 m).2 = .hashFailed) := by
          rw [reconcile_snd_hashFailed_iff]
          simp [hOk]
        have := bumpFull_sum { acc.2 with total := acc.2.total + 1 } (reconcileOne now acc.1 m).2
        simp only [stepFull]
        simp [this, hne]
    rw [List.countP_cons]
    omega

theorem foldFull_unchanged_le (now : Nat) :
    ∀ (metas : List FileMeta) (acc : List FileRec × Stats),
      acc.2.unchanged ≤ (metas.foldl (stepFull now) acc).2.unchanged := by
  intro metas
  induction metas with
  | nil => intro acc; exact le_refl _
  | cons m ms ih =>
    intro acc
    rw [List.foldl_cons]
    refine le_trans ?_ (ih (stepFull now acc m))
    have := bumpFull_unchanged_le { acc.2 with total := acc.2.total + 1 } (reconcileOne now acc.1 m).2
    simpa [stepFull] using this

theorem foldInc_total (now : Nat) :
    ∀ (metas : List FileMeta) (acc : List FileRec × StatsInc),
      (metas.foldl (stepInc now) acc).2.total = acc.2.total + metas.length := by
  intro metas
  induction metas with
  | nil => intro acc; simp
  | cons m ms ih =>
    intro acc
    rw [List.foldl_cons, ih (stepInc now acc m)]
    have : (stepInc now acc m).2.total = acc.2.total + 1 := by
      simp [stepInc, bumpInc_total]
    rw [this]
    simp
    omega

theorem foldInc_sum (now : Nat) :
    ∀ (metas : List FileMeta) (acc : List FileRec × StatsInc),
      (metas.foldl (stepInc now) acc).2.new + (metas.foldl (stepInc now) acc).2.updated +
          (metas.foldl (stepInc now) acc).2.unchanged =
        acc.2.new + acc.2.updated + acc.2.unchanged +
          metas.countP (fun m => m.hashOk) := by
  intro metas
  induction metas with
  | nil => intro acc; simp
  | cons m ms ih =>
    intro acc
    rw [List.foldl_cons, ih (stepInc now acc m)]
    have hstep : (stepInc now acc m).2.new + (stepInc now acc m).2.updated +
        (stepInc now acc m).2.unchanged =
        acc.2.new + acc.2.updated + acc.2.unchanged + (if m.hashOk then 1 else 0) := by
      cases hOk : m.hashOk
      · have hc : (reconcileOne now acc.1 m).2 = .hashFailed :=
          (reconcile_snd_hashFailed_iff now acc.1 m).mpr hOk
        simp [stepInc, hc, bumpInc]
      · have hne : ¬((reconcileOne now acc.1 m).2 = .hashFailed) := by
          rw [reconcile_snd_hashFailed_iff]
          simp [hOk]
        have := bumpInc_sum { acc.2 with total := acc.2.total + 1 } (reconcileOne now acc.1 m).2
        simp only [stepInc]
        simp [this, hne]
    rw [List.countP_cons]
    omega

theorem foldInc_unchanged_le (now : Nat) :
    ∀ (metas : List FileMeta) (acc : List FileRec × StatsInc),
      acc.2.unchanged ≤ (metas.foldl (stepInc now) acc).2.unchanged := by
  intro metas
  induction metas with
  | nil => intro acc; exact le_refl _
  | cons m ms ih =>
    intro acc
    rw [List.foldl_cons]
    refine le_trans ?_ (ih (stepInc now acc m))
    have := bumpInc_unchanged_le { acc.2 with total := acc.2.total + 1 } (reconcileOne now acc.1 m).2
    simpa [stepInc] using this

/-- If every hash-succeeding record already has a first-matching row with the
same hash, the loop touches nothing: the catalog is returned as-is and the
statistics count every such record as `unchanged`. -/
theorem foldFull_frame (now : Nat) :
    ∀ (metas : List FileMeta) (acc : List FileRec × Stats),
      (∀ m ∈ metas, m.hashOk = true →
        ∃ r rest, recsFor acc.1 m.file_path = r :: rest ∧ r.file_hash = some m.content) →
      metas.foldl (stepFull now) acc =
        (acc.1,
          { acc.2 with
            total := acc.2.total + metas.length
            unchanged := acc.2.unchanged + metas.countP (fun m => m.hashOk) }) := by
  intro metas
  induction metas with
  | nil =>
    intro acc _
    rcases acc with ⟨cat, ⟨n, u, uc, d, t⟩⟩
    simp
  | cons m ms ih =>
    intro acc h
    rw [List.foldl_cons]
    cases hOk : m.hashOk
    · have hstep : stepFull now acc m = (acc.1, { acc.2 with total := acc.2.total + 1 }) := by
        have hc := reconcile_fst_hashFailed now acc.1 m hOk
        simp [stepFull, hc, bumpFull]
      rw [hstep]
      rw [ih (acc.1, { acc.2 with total := acc.2.total + 1 })
        (fun m' hm' hOk' => h m' (List.mem_cons_of_mem _ hm') hOk')]
      rcases acc with ⟨cat, ⟨n, u, uc, d, t⟩⟩
      simp [List.countP_cons, hOk]
      omega
    · obtain ⟨r, rest, hrec, hh⟩ := h m (List.mem_cons_self _ _) hOk
      have hf : acc.1.find? (fun x => x.file_path == m.file_path) = some r := by
        rw [find?_eq_head?_recsFor, hrec]; rfl
      have hco : reconcileOne now acc.1 m = (acc.1, .unchanged) := by
        simp [reconcileOne, compute_file_hash, hOk, hf, hh]
      have hstep : stepFull now acc m =
          (acc.1,
            { acc.2 with
              total := acc.2.total + 1
              unchanged := acc.2.unchanged + 1 }) := by
        simp [stepFull, hco, bumpFull]
      rw [hstep]
      rw [ih (acc.1, { acc.2 with total := acc.2.total + 1, unchanged := acc.2.unchanged + 1 })
        (fun m' hm' hOk' => h m' (List.mem_cons_of_mem _ hm') hOk')]
      rcases acc with ⟨cat, ⟨n, u, uc, d, t⟩⟩
      simp [List.countP_cons, hOk]
      omega

/-- If some walked record's hash succeeds and matches the stored hash of the
first (and, under the `Nodup` assumptions, only) row with its path, the run's
`unchanged` counter ends at least one above its start. -/
theorem foldFull_unchanged_ge (now : Nat) (metas : List FileMeta)
    (acc : List FileRec × Stats) (m : FileMeta)
    (hNd : (metas.map (fun x => x.file_path)).Nodup) (hmem : m ∈ metas)
    (hOk : m.hashOk = true) (r : FileRec) (rest : List FileRec)
    (hrec : recsFor acc.1 m.file_path = r :: rest) (hh : r.file_hash = some m.content) :
    acc.2.unchanged + 1 ≤ (metas.foldl (stepFull now) acc).2.unchanged := by
  obtain ⟨l1, l2, rfl⟩ := List.append_of_mem hmem
  rw [List.foldl_append, List.foldl_cons]
  have hdisj := (List.nodup_append.mp (by simpa [List.map_append] using hNd)).2.2
  have hNd1 : ∀ x ∈ l1, x.file_path ≠ m.file_path := by
    intro x hx heq
    exact hdisj (a := m.file_path) (by rw [← heq]; exact List.mem_map_of_mem _ hx)
      (List.mem_cons_self _ _)
  have hcat : recsFor (l1.foldl (stepFull now) acc).1 m.file_path = r :: rest := by
    rw [foldFull_fst, foldCat_recsFor_other now m.file_path l1 hNd1 acc.1]
    exact hrec
  have hcls : (reconcileOne now (l1.foldl (stepFull now) acc).1 m).2 = .unchanged := by
    rw [reconcile_snd_eq, hOk]
    simp [hcat, hh]
  have hstep : (stepFull now (l1.foldl (stepFull now) acc) m).2.unchanged =
      (l1.foldl (stepFull now) acc).2.unchanged + 1 := by
    simp [stepFull, hcls, bumpFull]
  calc acc.2.unchanged + 1 ≤ (l1.foldl (stepFull now) acc).2.unchanged + 1 := by
        have := foldFull_unchanged_le now l1 acc
        omega
    _ = (stepFull now (l1.foldl (stepFull now) acc) m).2.unchanged := hstep.symm
    _ ≤ _ := foldFull_unchanged_le now l2 _

/-- Incremental-mode counterpart of `foldFull_unchanged_ge`. -/
theorem foldInc_unchanged_ge (now : Nat) (metas : List FileMeta)
    (acc : List FileRec × StatsInc) (m : FileMeta)
    (hNd : (metas.map (fun x => x.file_path)).Nodup) (hmem : m ∈ metas)
    (hOk : m.hashOk = true) (r : FileRec) (rest : List FileRec)
    (hrec : recsFor acc.1 m.file_path = r :: rest) (hh : r.file_hash = some m.content) :
    acc.2.unchanged + 1 ≤ (metas.foldl (stepInc now) acc).2.unchanged := by
  obtain ⟨l1, l2, rfl⟩ := List.append_of_mem hmem
  rw [List.foldl_append, List.foldl_cons]
  have hdisj := (List.nodup_append.mp (by simpa [List.map_append] using hNd)).2.2
  have hNd1 : ∀ x ∈ l1, x.file_path ≠ m.file_path := by
    intro x hx heq
    exact hdisj (a := m.file_path) (by rw [← heq]; exact List.mem_map_of_mem _ hx)
      (List.mem_cons_self _ _)
  have hcat : recsFor (l1.foldl (stepInc now) acc).1 m.file_path = r :: rest := by
    rw [foldInc_fst, foldCat_recsFor_other now m.file_path l1 hNd1 acc.1]
    exact hrec
  have hcls : (reconcileOne now (l1.foldl (stepInc now) acc).1 m).2 = .unchanged := by
    rw [reconcile_snd_eq, hOk]
    simp [hcat, hh]
  have hstep : (stepInc now (l1.foldl (stepInc now) acc) m).2.unchanged =
      (l1.foldl (stepInc now) acc).2.unchanged + 1 := by
    simp [stepInc, hcls, bumpInc]
  calc acc.2.unchanged + 1 ≤ (l1.foldl (stepInc now) acc).2.unchanged + 1 := by
        have := foldInc_unchanged_le now l1 acc
        omega
    _ = (stepInc now (l1.foldl (stepInc now) acc) m).2.unchanged := hstep.symm
    _ ≤ _ := foldInc_unchanged_le now l2 _

/-! ## Walker lemmas -/

theorem walk_corpus_eq_filterMap (fs : CorpusFS) (sp se : List String) :
    walk_corpus fs sp se =
      if fs.rootIsDir then
        (sortEntries fs.entries).filterMap
          (fun e => if eligible sp se e then some (toMeta e) else none)
      else [] := by
  unfold walk_corpus
  cases fs.rootIsDir
  · simp
  · simp only [if_true]
    congr 1
    funext item
    by_cases h1 : item.isDir <;>
      by_cases h2 : item.path.any (fun part => strStartsWith part ".") <;>
      by_cases h3 : should_skip (fileName item.path) sp <;>
      by_cases h4 : se.contains (strToLower (nameSuffix (fileName item.path))) = true <;>
      simp [eligible, h1, h2, h3, h4]

theorem mem_sortEntries {e : FSEntry} {es : List FSEntry} : e ∈ sortEntries es ↔ e ∈ es := by
  unfold sortEntries
  exact (List.perm_insertionSort _ _).mem_iff

theorem mem_walk_corpus {fs : CorpusFS} {sp se : List String} {m : FileMeta} :
    m ∈ walk_corpus fs sp se ↔
      fs.rootIsDir = true ∧ ∃ e, e ∈ fs.entries ∧ eligible sp se e = true ∧ m = toMeta e := by
  rw [walk_corpus_eq_filterMap]
  by_cases hR : fs.rootIsDir = true
  · simp only [hR, if_true, List.mem_filterMap, true_and]
    constructor
    · rintro ⟨e, he, hsome⟩
      have hmem : e ∈ fs.entries := mem_sortEntries.mp he
      by_cases helig : eligible sp se e = true
      · rw [if_pos helig] at hsome
        exact ⟨e, hmem, helig, (Option.some.inj hsome).symm⟩
      · rw [if_neg helig] at hsome
        cases hsome
    · rintro ⟨e, hmem, helig, rfl⟩
      exact ⟨e, mem_sortEntries.mpr hmem, by rw [if_pos helig]⟩
  · have hR' : fs.rootIsDir = false := by simpa using hR
    simp [hR']

theorem toMeta_file_path (e : FSEntry) : (toMeta e).file_path = joinPath e.path := rfl

theorem mem_walkedPaths {fs : CorpusFS} {sp se : List String} {p : String} :
    p ∈ walkedPaths fs sp se ↔ ∃ m ∈ walk_corpus fs sp se, m.file_path = p := by
  simp [walkedPaths]

/-! ## Top-level run lemmas -/

theorem index_corpus_fst (fs : CorpusFS) (cat : List FileRec) (now : Nat)
    (sp se : List String) :
    (index_corpus fs cat now sp se).1 =
      (foldCat now cat (walk_corpus fs sp se)).filter
        (fun r => (walkedPaths fs sp se).contains r.file_path) := by
  simp only [index_corpus]
  rw [foldFull_fst]

theorem index_corpus_total (fs : CorpusFS) (cat : List FileRec) (now : Nat)
    (sp se : List String) :
    (index_corpus fs cat now sp se).2.total = (walk_corpus fs sp se).length := by
  simp only [index_corpus]
  simp [bumpFull_total, foldFull_total]

theorem index_corpus_deleted (fs : CorpusFS) (cat : List FileRec) (now : Nat)
    (sp se : List String) :
    (index_corpus fs cat now sp se).2.deleted =
      ((foldCat now cat (walk_corpus fs sp se)).filter
        (fun r => !(walkedPaths fs sp se).contains r.file_path)).length := by
  simp only [index_corpus]
  simp [foldFull_deleted, foldFull_fst]

theorem index_corpus_counts (fs : CorpusFS) (cat : List FileRec) (now : Nat)
    (sp se : List String) :
    (index_corpus fs cat now sp se).2.new =
        ((walk_corpus fs sp se).foldl (stepFull now)
          (cat, { new := 0, updated := 0, unchanged := 0, deleted := 0, total := 0 })).2.new ∧
      (index_corpus fs cat now sp se).2.updated =
        ((walk_corpus fs sp se).foldl (stepFull now)
          (cat, { new := 0, updated := 0, unchanged := 0, deleted := 0, total := 0 })).2.updated ∧
      (index_corpus fs cat now sp se).2.unchanged =
        ((walk_corpus fs sp se).foldl (stepFull now)
          (cat, { new := 0, updated := 0, unchanged := 0, deleted := 0, total := 0 })).2.unchanged := by
  simp [index_corpus]

theorem reindex_changed_fst (fs : CorpusFS) (cat : List FileRec) (now : Nat)
    (sp se : List String) :
    (reindex_changed fs cat now sp se).1 = foldCat now cat (walk_corpus fs sp se) := by
  simp only [reindex_changed]
  rw [foldInc_fst]

theorem reindex_changed_total (fs : CorpusFS) (cat : List FileRec) (now : Nat)
    (sp se : List String) :
    (reindex_changed fs cat now sp se).2.total = (walk_corpus fs sp se).length := by
  simp only [reindex_changed]
  simp [foldInc_total]

/-! ## Remaining helper lemmas -/

theorem contains_iff_mem {l : List String} {a : String} : l.contains a = true ↔ a ∈ l := by
  simp [List.contains]

theorem recsFor_len_le_one (p : String) :
    ∀ cat : List FileRec, (catKeys cat).Nodup → (recsFor cat p).length ≤ 1 := by
  intro cat
  induction cat with
  | nil => intro _; simp [recsFor]
  | cons x xs ih =>
    intro hNd
    have hNd2 : (∀ y ∈ xs, ¬ y.file_path = x.file_path) ∧
        (xs.map (fun r => r.file_path)).Nodup := by
      simpa [catKeys] using hNd
    by_cases h : x.file_path == p
    · have hp : x.file_path = p := by simpa using h
      have hempty : recsFor xs p = [] := by
        by_contra hne
        obtain ⟨r, hr⟩ := List.exists_mem_of_ne_nil _ hne
        have hkey : r.file_path = p := recsFor_key xs p r hr
        have hrmem : r ∈ xs := List.mem_of_mem_filter hr
        exact hNd2.1 r hrmem (by rw [hkey, hp])
      simp only [recsFor, List.filter_cons, h, if_true]
      have hempty' : List.filter (fun r => r.file_path == p) xs = [] := hempty
      rw [hempty']
      simp
    · have hb : (x.file_path == p) = false := by simpa using h
      simp only [recsFor, List.filter_cons, hb, Bool.false_eq_true, if_false]
      exact ih hNd2.2

theorem recsFor_filter_contains (cat : List FileRec) (seen : List String) (p : String) :
    recsFor (cat.filter (fun r => seen.contains r.file_path)) p =
      if seen.contains p = true then recsFor cat p else [] := by
  simp only [recsFor, List.filter_filter]
  have hcongr : ∀ r : FileRec, ((r.file_path == p) && seen.contains r.file_path) =
      ((r.file_path == p) && seen.contains p) := by
    intro r
    by_cases h : r.file_path = p
    · rw [h]
    · have hb : (r.file_path == p) = false := by simpa using h
      simp [hb]
  rw [List.filter_congr (fun r _ => hcongr r)]
  by_cases hc : seen.contains p = true
  · rw [if_pos hc]
    apply List.filter_congr
    intro r _
    rw [hc, Bool.and_true]
  · have hc' : seen.contains p = false := by simpa using hc
    rw [if_neg hc]
    have hall : ∀ r ∈ cat, ((r.file_path == p) && seen.contains p) = false := by
      intro r _
      rw [hc', Bool.and_false]
    rw [List.filter_congr hall]
    simp

theorem find?_of_mem_nodup :
    ∀ (metas : List FileMeta) (m : FileMeta),
      ((metas.map (fun x => x.file_path)).Nodup) → m ∈ metas →
      metas.find? (fun x => x.file_path == m.file_path) = some m := by
  intro metas
  induction metas with
  | nil => intro m _ hmem; cases hmem
  | cons m0 ms ih =>
    intro m hNd hmem
    have hNd2 : (∀ x ∈ ms, ¬ x.file_path = m0.file_path) ∧
        (ms.map (fun x => x.file_path)).Nodup := by
      simpa using hNd
    rcases List.mem_cons.mp hmem with rfl | hmem2
    · simp [List.find?_cons]
    · have hne : (m0.file_path == m.file_path) = false := by
        simp only [beq_eq_false_iff_ne, ne_eq]
        intro heq
        exact hNd2.1 m hmem2 heq.symm
      rw [List.find?_cons, hne]
      simp only [Bool.false_eq_true, if_false]
      exact ih m hNd2.2 hmem2

theorem bumpFull_updated_le (st : Stats) (c : Classification) :
    st.updated ≤ (bumpFull st c).updated := by
  cases c <;> simp [bumpFull]

theorem foldFull_updated_le (now : Nat) :
    ∀ (metas : List FileMeta) (acc : List FileRec × Stats),
      acc.2.updated ≤ (metas.foldl (stepFull now) acc).2.updated := by
  intro metas
  induction metas with
  | nil => intro acc; exact le_refl _
  | cons m ms ih =>
    intro acc
    rw [List.foldl_cons]
    refine le_trans ?_ (ih (stepFull now acc m))
    have := bumpFull_updated_le { acc.2 with total := acc.2.total + 1 } (reconcileOne now acc.1 m).2
    simpa [stepFull] using this

/-- If some walked record's hash succeeds and differs from the stored hash of
the first row with its path, the run's `updated` counter ends at least one
above its start. -/
theorem foldFull_updated_ge (now : Nat) (metas : List FileMeta)
    (acc : List FileRec × Stats) (m : FileMeta)
    (hNd : (metas.map (fun x => x.file_path)).Nodup) (hmem : m ∈ metas)
    (hOk : m.hashOk = true) (r : FileRec) (rest : List FileRec)
    (hrec : recsFor acc.1 m.file_path = r :: rest) (hh : ¬ r.file_hash = some m.content) :
    acc.2.updated + 1 ≤ (metas.foldl (stepFull now) acc).2.updated := by
  obtain ⟨l1, l2, rfl⟩ := List.append_of_mem hmem
  rw [List.foldl_append, List.foldl_cons]
  have hdisj := (List.nodup_append.mp (by simpa [List.map_append] using hNd)).2.2
  have hNd1 : ∀ x ∈ l1, x.file_path ≠ m.file_path := by
    intro x hx heq
    exact hdisj (a := m.file_path) (by rw [← heq]; exact List.mem_map_of_mem _ hx)
      (List.mem_cons_self _ _)
  have hcat : recsFor (l1.foldl (stepFull now) acc).1 m.file_path = r :: rest := by
    rw [foldFull_fst, foldCat_recsFor_other now m.file_path l1 hNd1 acc.1]
    exact hrec
  have hb : (r.file_hash == some m.content) = false := by simpa using hh
  have hcls : (reconcileOne now (l1.foldl (stepFull now) acc).1 m).2 = .updated := by
    rw [reconcile_snd_eq, hOk]
    simp [hcat, hb]
  have hstep : (stepFull now (l1.foldl (stepFull now) acc) m).2.updated =
      (l1.foldl (stepFull now) acc).2.updated + 1 := by
    simp [stepFull, hcls, bumpFull]
  calc acc.2.updated + 1 ≤ (l1.foldl (stepFull now) acc).2.updated + 1 := by
        have := foldFull_updated_le now l1 acc
        omega
    _ = (stepFull now (l1.foldl (stepFull now) acc) m).2.updated := hstep.symm
    _ ≤ _ := foldFull_updated_le now l2 _

/-! ## Split/join lemmas for section derivation -/

theorem splitSlash_no_slash :
    ∀ (cs acc : List Char), '/' ∉ cs → splitSlash acc cs = [String.mk (acc.reverse ++ cs)] := by
  intro cs
  induction cs with
  | nil => intro acc _; simp [splitSlash]
  | cons c cs ih =>
    intro acc h
    have hc : ¬ c = '/' := fun heq => h (heq ▸ List.mem_cons_self _ _)
    rw [splitSlash, if_neg hc, ih (c :: acc) (fun hm => h (List.mem_cons_of_mem _ hm))]
    simp

theorem splitSlash_append :
    ∀ (xs : List Char), '/' ∉ xs → ∀ (acc rest : List Char),
      splitSlash acc (xs ++ '/' :: rest) =
        String.mk (acc.reverse ++ xs) :: splitSlash [] rest := by
  intro xs
  induction xs with
  | nil => intro _ acc rest; simp [splitSlash]
  | cons x xs ih =>
    intro h acc rest
    have hx : ¬ x = '/' := fun heq => h (heq ▸ List.mem_cons_self _ _)
    rw [List.cons_append, splitSlash, if_neg hx,
      ih (fun hm => h (List.mem_cons_of_mem _ hm)) (x :: acc) rest]
    simp

theorem pathParts_joinPath :
    ∀ ps : List String, (∀ q ∈ ps, q ≠ "" ∧ q ≠ "." ∧ '/' ∉ q.data) →
      pathParts (joinPath ps) = ps := by
  intro ps
  induction ps with
  | nil => intro _; rfl
  | cons p ps ih =>
    intro h
    obtain ⟨hp1, hp2, hp3⟩ := h p (List.mem_cons_self _ _)
    have hkeep : (p ≠ "" && p ≠ ".") = true := by simp [hp1, hp2]
    cases ps with
    | nil =>
      simp only [joinPath, pathParts]
      rw [splitSlash_no_slash p.data [] hp3]
      rw [show String.mk (List.reverse [] ++ p.data) = p from rfl]
      simp only [List.filter_cons, hkeep, if_true]
      simp
    | cons p2 ps2 =>
      have hdata : (joinPath (p :: p2 :: ps2)).data =
          p.data ++ '/' :: (joinPath (p2 :: ps2)).data := by
        show ((p ++ "/") ++ joinPath (p2 :: ps2)).data = _
        rw [String.data_append, String.data_append]
        simp
      simp only [pathParts, hdata]
      rw [splitSlash_append p.data hp3 [] _]
      rw [show String.mk (List.reverse [] ++ p.data) = p from rfl]
      rw [List.filter_cons]
      simp only [hkeep, if_true]
      have hih := ih (fun q hq => h q (List.mem_cons_of_mem _ hq))
      simp only [pathParts] at hih
      rw [hih]

/-- The walker yields records in the parts-tuple lexicographic order of
their relative paths.  The yielded record only carries the joined path
string, so the components are recovered by re-splitting; for canonical
components (nonempty, not `.`, slash-free — true of every real filesystem
path) the roundtrip is exact. -/
theorem walk_corpus_sorted (fs : CorpusFS) (sp se : List String)
    (hcanon : ∀ e ∈ fs.entries, ∀ q ∈ e.path, q ≠ "" ∧ q ≠ "." ∧ '/' ∉ q.data) :
    (walk_corpus fs sp se).Pairwise
      (fun a b => partsLe (pathParts a.file_path) (pathParts b.file_path) = true) := by
  rw [walk_corpus_eq_filterMap]
  by_cases hR : fs.rootIsDir = true
  · rw [if_pos hR]
    have hs : (sortEntries fs.entries).Pairwise
        (fun a b => partsLe a.path b.path = true) :=
      List.sorted_insertionSort _ _
    rw [List.pairwise_filterMap]
    refine List.Pairwise.imp_of_mem ?_ hs
    intro a b ha hb hab x hx y hy
    by_cases hea : eligible sp se a = true
    · by_cases heb : eligible sp se b = true
      · rw [if_pos hea] at hx
        rw [if_pos heb] at hy
        simp only [Option.mem_some_iff] at hx hy
        subst hx
        subst hy
        have hpa : pathParts (toMeta a).file_path = a.path := by
          rw [toMeta_file_path]
          exact pathParts_joinPath a.path (hcanon a (mem_sortEntries.mp ha))
        have hpb : pathParts (toMeta b).file_path = b.path := by
          rw [toMeta_file_path]
          exact pathParts_joinPath b.path (hcanon b (mem_sortEntries.mp hb))
        rw [hpa, hpb]
        exact hab
      · rw [if_neg heb] at hy
        simp at hy
    · rw [if_neg hea] at hx
      simp at hx
  · have hR2 : fs.rootIsDir = false := by simpa using hR
    simp [hR2]

/-! ## Run-level characterisation helpers -/

/-- A full run's rows holding path `p`: empty when `p` was not walked,
otherwise the per-file effect of the unique walked record with that path
applied to the starting rows for `p`. -/
theorem index_recsFor_char (fs : CorpusFS) (cat : List FileRec) (now : Nat)
    (sp se : List String) (p : String) (hW : (walkedPaths fs sp se).Nodup) :
    recsFor (index_corpus fs cat now sp se).1 p =
      if (walkedPaths fs sp se).contains p = true then
        (match (walk_corpus fs sp se).find? (fun x => x.file_path == p) with
         | none => recsFor cat p
         | some m => keyEffect now m (recsFor cat p))
      else [] := by
  rw [index_corpus_fst, recsFor_filter_contains,
    foldCat_recsFor now p (walk_corpus fs sp se) hW cat]

/-- Incremental counterpart of `index_recsFor_char` (no deletion filter). -/
theorem reindex_recsFor_char (fs : CorpusFS) (cat : List FileRec) (now : Nat)
    (sp se : List String) (p : String) (hW : (walkedPaths fs sp se).Nodup) :
    recsFor (reindex_changed fs cat now sp se).1 p =
      (match (walk_corpus fs sp se).find? (fun x => x.file_path == p) with
       | none => recsFor cat p
       | some m => keyEffect now m (recsFor cat p)) := by
  rw [reindex_changed_fst, foldCat_recsFor now p (walk_corpus fs sp se) hW cat]

theorem keyEffect_head (now : Nat) (m : FileMeta) (l : List FileRec)
    (hok : m.hashOk = true) :
    ∃ r rest, keyEffect now m l = r :: rest ∧ r.file_hash = some m.content := by
  unfold keyEffect
  simp only [hok, if_true]
  cases l with
  | nil => exact ⟨newRec m m.content now, [], rfl, rfl⟩
  | cons r rest =>
    by_cases hh : r.file_hash == some m.content
    · exact ⟨r, rest, by simp [hh], by simpa using hh⟩
    · have hb : (r.file_hash == some m.content) = false := by simpa using hh
      exact ⟨updatedRec r m m.content now, rest, by simp [hb], rfl⟩

theorem keyEffect_len (now : Nat) (m : FileMeta) (l : List FileRec)
    (hok : m.hashOk = true) (hl : l.length ≤ 1) : (keyEffect now m l).length = 1 := by
  unfold keyEffect
  simp only [hok, if_true]
  cases l with
  | nil => rfl
  | cons r rest =>
    have hrest : rest = [] := by
      cases rest with
      | nil => rfl
      | cons y ys => simp at hl
    subst hrest
    by_cases hh : r.file_hash == some m.content <;> simp [hh]

theorem keyEffect_hashfail (now : Nat) (m : FileMeta) (l : List FileRec)
    (hfail : m.hashOk = false) : keyEffect now m l = l := by
  unfold keyEffect
  simp [hfail]

/-- After a full run, every walked record whose hash succeeded has its path
present with the freshly computed hash stored in the first matching row. -/
theorem index_run1_hash (fs : CorpusFS) (cat : List FileRec) (now : Nat)
    (sp se : List String) (hW : (walkedPaths fs sp se).Nodup) (m : FileMeta)
    (hm : m ∈ walk_corpus fs sp se) (hok : m.hashOk = true) :
    ∃ r rest, recsFor (index_corpus fs cat now sp se).1 m.file_path = r :: rest ∧
      r.file_hash = some m.content := by
  rw [index_recsFor_char fs cat now sp se m.file_path hW]
  have hp : (walkedPaths fs sp se).contains m.file_path = true :=
    contains_iff_mem.mpr (mem_walkedPaths.mpr ⟨m, hm, rfl⟩)
  rw [if_pos hp, find?_of_mem_nodup _ m hW hm]
  exact keyEffect_head now m _ hok

/-- The rows a hash-failed eligible file holds are untouched by a full run:
its path is in the seen-set (seen is recorded before hashing), so the
deletion pass skips it, and the upsert was skipped by the `continue`. -/
theorem index_recsFor_hashfail (fs : CorpusFS) (cat : List FileRec) (now : Nat)
    (sp se : List String) (e : FSEntry)
    (hR : fs.rootIsDir = true) (hW : (walkedPaths fs sp se).Nodup)
    (he : e ∈ fs.entries) (helig : eligible sp se e = true) (hfail : e.hashOk = false) :
    recsFor (index_corpus fs cat now sp se).1 (joinPath e.path) =
      recsFor cat (joinPath e.path) := by
  have hm : toMeta e ∈ walk_corpus fs sp se := mem_walk_corpus.mpr ⟨hR, e, he, helig, rfl⟩
  have hmp : (toMeta e).file_path = joinPath e.path := rfl
  have hc : (walkedPaths fs sp se).contains (joinPath e.path) = true :=
    contains_iff_mem.mpr (mem_walkedPaths.mpr ⟨toMeta e, hm, hmp⟩)
  rw [index_recsFor_char fs cat now sp se _ hW, if_pos hc]
  have hf : (walk_corpus fs sp se).find? (fun x => x.file_path == joinPath e.path) =
      some (toMeta e) := find?_of_mem_nodup _ (toMeta e) hW hm
  rw [hf]
  exact keyEffect_hashfail now (toMeta e) _ hfail

theorem index_fst_filter_self (fs : CorpusFS) (cat : List FileRec) (now : Nat)
    (sp se : List String) :
    ((index_corpus fs cat now sp se).1).filter
        (fun r => (walkedPaths fs sp se).contains r.file_path) =
      (index_corpus fs cat now sp se).1 := by
  rw [index_corpus_fst, List.filter_filter]
  apply List.filter_congr
  intro r _
  cases h : (walkedPaths fs sp se).contains r.file_path <;> simp [h]

theorem filter_not_contains_of_filtered (l : List FileRec) (seen : List String) :
    ((l.filter (fun r => seen.contains r.file_path)).filter
      (fun r => !seen.contains r.file_path)) = [] := by
  rw [List.filter_filter]
  have hall : ∀ r ∈ l, ((!seen.contains r.file_path) && seen.contains r.file_path) = false := by
    intro r _
    cases h : seen.contains r.file_path <;> simp [h]
  rw [List.filter_congr hall]
  simp

theorem Stats_ext (a b : Stats) (h1 : a.new = b.new) (h2 : a.updated = b.updated)
    (h3 : a.unchanged = b.unchanged) (h4 : a.deleted = b.deleted)
    (h5 : a.total = b.total) : a = b := by
  cases a
  cases b
  simp only [Stats.mk.injEq]
  exact ⟨h1, h2, h3, h4, h5⟩

theorem countP_hashOk_add (l : List FileMeta) :
    l.countP (fun m => m.hashOk) + l.countP (fun m => !m.hashOk) = l.length := by
  induction l with
  | nil => rfl
  | cons m ms ih =>
    cases h : m.hashOk <;> simp [List.countP_cons, h] <;> omega

/-! ## Concrete fixtures for witnesses and counterexamples -/

/-- An eligible markdown file inside the `docs` directory. -/
def entryDocsA : FSEntry :=
  { path := ["docs", "a.md"], isDir := false, size := 500, ctime := 1, mtime := 2,
    content := 10, hashOk := true }

/-- The same file after its bytes changed, timestamps and size held constant. -/
def entryDocsA2 : FSEntry := { entryDocsA with content := 11 }

/-- An eligible text file at the corpus root. -/
def entryReadme : FSEntry :=
  { path := ["readme.txt"], isDir := false, size := 20, ctime := 3, mtime := 4,
    content := 20, hashOk := true }

/-- An eligible file whose hashing raises an I/O error. -/
def entryBad : FSEntry :=
  { path := ["bad.md"], isDir := false, size := 30, ctime := 5, mtime := 6,
    content := 30, hashOk := false }

/-- A directory entry (never yields a record). -/
def entryDocsDir : FSEntry :=
  { path := ["docs"], isDir := true, size := 0, ctime := 0, mtime := 0,
    content := 0, hashOk := true }

def fsSample : CorpusFS :=
  { rootIsDir := true, entries := [entryDocsA, entryReadme, entryBad, entryDocsDir] }

/-- Tree `fsSample` with the bytes of `docs/a.md` modified in place. -/
def fsSample2 : CorpusFS :=
  { rootIsDir := true, entries := [entryDocsA2, entryReadme, entryBad, entryDocsDir] }

/-- A corpus whose only file is eligible but unreadable. -/
def fsOnlyBad : CorpusFS := { rootIsDir := true, entries := [entryBad] }

/-- A misconfigured corpus root (does not exist / not a directory). -/
def fsMissingRoot : CorpusFS := { rootIsDir := false, entries := [] }

/-- A pre-existing catalog row for `bad.md` with some older hash. -/
def recBad : FileRec :=
  { file_path := "bad.md", file_name := "bad.md", file_extension := ".md",
    file_size_bytes := 30, parent_dir := "", corpus_section := none,
    created_at := 5, modified_at := 6, indexed_at := 0, file_hash := some 99 }

/-- A catalog row for a file that no longer exists on disk. -/
def recStale : FileRec :=
  { file_path := "gone.md", file_name := "gone.md", file_extension := ".md",
    file_size_bytes := 1, parent_dir := "", corpus_section := none,
    created_at := 0, modified_at := 0, indexed_at := 0, file_hash := some 1 }

/-- A catalog row for `docs/a.md` whose stored hash matches the file's bytes. -/
def recDocsA : FileRec :=
  { file_path := "docs/a.md", file_name := "a.md", file_extension := ".md",
    file_size_bytes := 500, parent_dir := "docs", corpus_section := some "docs",
    created_at := 1, modified_at := 2, indexed_at := 3, file_hash := some 10 }

def catSample : List FileRec := [recBad, recStale]

/-- A directory `a` next to a file `a.md`: the tree on which parts-tuple
order and joined-string order disagree. -/
def entryADir : FSEntry :=
  { path := ["a"], isDir := true, size := 0, ctime := 0, mtime := 0,
    content := 0, hashOk := true }

def entryAmd : FSEntry :=
  { path := ["a.md"], isDir := false, size := 1, ctime := 0, mtime := 0,
    content := 1, hashOk := true }

def entryABmd : FSEntry :=
  { path := ["a", "b.md"], isDir := false, size := 2, ctime := 0, mtime := 0,
    content := 2, hashOk := true }

def fsNested : CorpusFS :=
  { rootIsDir := true, entries := [entryAmd, entryABmd, entryADir] }

/-- Order fidelity on the discriminating tree: with entries `a/` (directory),
`a.md` and `a/b.md`, the walk yields `a/b.md` before `a.md` — the parts-tuple
order `("a", "b.md") < ("a.md",)` that Python's `sorted` produces, which is
the reverse of the joined-string order of the two paths. -/
theorem walkedPaths_fsNested :
    walkedPaths fsNested DEFAULT_SKIP_PATTERNS DEFAULT_SUPPORTED_EXTENSIONS =
      ["a/b.md", "a.md"] := by
  decide

/-! ## Claim theorems -/

/-- C3 — claim: a run over a missing/non-directory corpus root performs no
catalog mutation and yields an explicit failure signal.  The code violates
this: `walk_corpus` logs and yields nothing, `index_corpus` then runs its
deletion pass with an empty seen-set, deleting every existing row and
returning an ordinary statistics dict (`deleted` = old catalog size,
`total` = 0) with no failure signal.  This theorem evaluates the run at the
failing input: one pre-existing row, root missing. -/
theorem C3_missing_root_wipes_catalog :
    index_corpus fsMissingRoot [recStale] 7 DEFAULT_SKIP_PATTERNS
        DEFAULT_SUPPORTED_EXTENSIONS =
      ([], { new := 0, updated := 0, unchanged := 0, deleted := 1, total := 0 }) := by
  decide

/-- C8 — section derivation: for any component list (components nonempty,
not `.`, slash-free), joining and re-splitting gives back the components, and
the derived section is the first component when there are at least two,
`none` otherwise; in particular `docs/guides/setup.md ↦ docs` and
`readme.txt ↦ none`. -/
theorem C8_section_derivation :
    (∀ ps : List String, (∀ q ∈ ps, q ≠ "" ∧ q ≠ "." ∧ '/' ∉ q.data) →
        determine_corpus_section (joinPath ps) =
          if ps.length ≤ 1 then none else ps.head?) ∧
    determine_corpus_section "docs/guides/setup.md" = some "docs" ∧
    determine_corpus_section "readme.txt" = none := by
  refine ⟨?_, by decide, by decide⟩
  intro ps h
  simp only [determine_corpus_section]
  rw [pathParts_joinPath ps h]
  by_cases hl : ps.length ≤ 1
  · simp [hl]
  · rw [if_neg hl, if_neg hl]
    cases ps with
    | nil => simp at hl
    | cons q qs => simp

/-- C9 — deterministic traversal order: Python's `sorted` compares `Path`
objects by their parts tuple, so the walker yields records in parts-tuple
lexicographic order of the relative path (components compared by code
point); the records are pairwise so ordered, re-splitting each yielded path
string into its components (exact for canonical components: nonempty, not
`.`, slash-free — true of every real filesystem path).  The output is
moreover a function of the tree alone: any tree with the same root flag and
entries yields the identical sequence. -/
theorem C9_walk_order (fs : CorpusFS) (sp se : List String)
    (hcanon : ∀ e ∈ fs.entries, ∀ q ∈ e.path, q ≠ "" ∧ q ≠ "." ∧ '/' ∉ q.data) :
    List.Pairwise
        (fun a b => partsLe (pathParts a.file_path) (pathParts b.file_path) = true)
        (walk_corpus fs sp se) ∧
      (∀ fs2 : CorpusFS, fs2.rootIsDir = fs.rootIsDir → fs2.entries = fs.entries →
        walk_corpus fs2 sp se = walk_corpus fs sp se) := by
  refine ⟨walk_corpus_sorted fs sp se hcanon, ?_⟩
  intro fs2 h1 h2
  have heq : fs2 = fs := by
    cases fs2
    cases fs
    simp_all
  rw [heq]

/-- Witness for C8 at concrete components. -/
theorem C8_witness :
    determine_corpus_section (joinPath ["docs", "guides", "setup.md"]) =
      (if (["docs", "guides", "setup.md"] : List String).length ≤ 1 then none
       else (["docs", "guides", "setup.md"] : List String).head?) :=
  C8_section_derivation.1 ["docs", "guides", "setup.md"] (by decide)

/-- Witness for C9 at the discriminating tree (`a/`, `a.md`, `a/b.md`),
where the walk is `[a/b.md, a.md]` — parts-tuple order, not joined-string
order (see `walkedPaths_fsNested`). -/
theorem C9_witness :
    List.Pairwise
        (fun a b => partsLe (pathParts a.file_path) (pathParts b.file_path) = true)
        (walk_corpus fsNested DEFAULT_SKIP_PATTERNS DEFAULT_SUPPORTED_EXTENSIONS) ∧
      walk_corpus fsNested DEFAULT_SKIP_PATTERNS DEFAULT_SUPPORTED_EXTENSIONS =
        walk_corpus fsNested DEFAULT_SKIP_PATTERNS DEFAULT_SUPPORTED_EXTENSIONS :=
  ⟨(C9_walk_order fsNested DEFAULT_SKIP_PATTERNS DEFAULT_SUPPORTED_EXTENSIONS
      (by decide)).1,
    (C9_walk_order fsNested DEFAULT_SKIP_PATTERNS DEFAULT_SUPPORTED_EXTENSIONS
      (by decide)).2 fsNested rfl rfl⟩

/-- C1 — counterexample to the claim as stated: in a corpus whose only
file `bad.md` is eligible (supported extension, no skip match, not hidden)
but whose fingerprinting fails, a full sync from an empty catalog leaves the
catalog empty — there is no entry for the eligible file. -/
theorem C1_counterexample :
    ¬ (∀ p : String,
        (∃ e ∈ fsOnlyBad.entries,
            eligible DEFAULT_SKIP_PATTERNS DEFAULT_SUPPORTED_EXTENSIONS e = true ∧
              joinPath e.path = p) →
        (recsFor (index_corpus fsOnlyBad [] 0 DEFAULT_SKIP_PATTERNS
            DEFAULT_SUPPORTED_EXTENSIONS).1 p).length = 1) := by
  intro h
  exact absurd (h "bad.md" (by decide)) (by decide)

/-- C1 (amended) — after a full sync over a corpus tree with distinct
walked paths and a catalog with unique keys: every eligible file whose
fingerprinting succeeds has exactly one catalog entry under its relative
path; an eligible file whose fingerprinting fails keeps exactly its
pre-existing rows (none if it was never catalogued); and any path that is
not the relative path of an eligible file has no entry at all. -/
theorem C1_full_sync_catalog_exact (fs : CorpusFS) (cat : List FileRec) (now : Nat)
    (sp se : List String) (p : String)
    (hN : (catKeys cat).Nodup) (hW : (walkedPaths fs sp se).Nodup) :
    ((∃ e ∈ fs.entries, eligible sp se e = true ∧ joinPath e.path = p ∧ e.hashOk = true) →
        fs.rootIsDir = true →
        (recsFor (index_corpus fs cat now sp se).1 p).length = 1) ∧
    ((∃ e ∈ fs.entries, eligible sp se e = true ∧ joinPath e.path = p ∧ e.hashOk = false) →
        fs.rootIsDir = true →
        recsFor (index_corpus fs cat now sp se).1 p = recsFor cat p) ∧
    ((∀ e ∈ fs.entries, eligible sp se e = true → joinPath e.path ≠ p) →
        recsFor (index_corpus fs cat now sp se).1 p = []) := by
  refine ⟨?_, ?_, ?_⟩
  · rintro ⟨e, he, helig, hpath, hok⟩ hR
    have hm : toMeta e ∈ walk_corpus fs sp se := mem_walk_corpus.mpr ⟨hR, e, he, helig, rfl⟩
    have hmp : (toMeta e).file_path = p := by rw [toMeta_file_path, hpath]
    have hc : (walkedPaths fs sp se).contains p = true :=
      contains_iff_mem.mpr (mem_walkedPaths.mpr ⟨toMeta e, hm, hmp⟩)
    rw [index_recsFor_char fs cat now sp se p hW, if_pos hc]
    have hf : (walk_corpus fs sp se).find? (fun x => x.file_path == p) = some (toMeta e) := by
      have hfind := find?_of_mem_nodup (walk_corpus fs sp se) (toMeta e) hW hm
      rw [hmp] at hfind
      exact hfind
    rw [hf]
    exact keyEffect_len now (toMeta e) _ hok (recsFor_len_le_one p cat hN)
  · rintro ⟨e, he, helig, hpath, hfail⟩ hR
    rw [← hpath]
    exact index_recsFor_hashfail fs cat now sp se e hR hW he helig hfail
  · intro h
    have hc : (walkedPaths fs sp se).contains p = false := by
      by_contra hcne
      have hc2 : (walkedPaths fs sp se).contains p = true := by
        cases hcv : (walkedPaths fs sp se).contains p
        · exact absurd hcv hcne
        · rfl
      obtain ⟨m, hm, hmp⟩ := mem_walkedPaths.mp (contains_iff_mem.mp hc2)
      obtain ⟨hR, e, he, helig, rfl⟩ := mem_walk_corpus.mp hm
      exact h e he helig (by rw [← toMeta_file_path e, hmp])
    rw [index_recsFor_char fs cat now sp se p hW, if_neg (by rw [hc]; simp)]

/-- Witness for the amended C1 over the sample tree: `docs/a.md` (readable)
gets exactly one row, `bad.md` (hash fails, already catalogued) keeps its
rows, and `gone.md` (not on disk) ends with none. -/
theorem C1_witness :
    (recsFor (index_corpus fsSample catSample 9 DEFAULT_SKIP_PATTERNS
        DEFAULT_SUPPORTED_EXTENSIONS).1 "docs/a.md").length = 1 ∧
      recsFor (index_corpus fsSample catSample 9 DEFAULT_SKIP_PATTERNS
          DEFAULT_SUPPORTED_EXTENSIONS).1 "bad.md" = recsFor catSample "bad.md" ∧
      recsFor (index_corpus fsSample catSample 9 DEFAULT_SKIP_PATTERNS
          DEFAULT_SUPPORTED_EXTENSIONS).1 "gone.md" = [] :=
  ⟨(C1_full_sync_catalog_exact fsSample catSample 9 _ _ "docs/a.md" (by decide)
      (by decide)).1 (by decide) (by decide),
    (C1_full_sync_catalog_exact fsSample catSample 9 _ _ "bad.md" (by decide)
      (by decide)).2.1 (by decide) (by decide),
    (C1_full_sync_catalog_exact fsSample catSample 9 _ _ "gone.md" (by decide)
      (by decide)).2.2 (by decide)⟩

/-- C2 — a walked record whose fingerprinting raises is still added to
`seen_paths` (line 154 precedes the `try` at line 156), so a pre-existing
row with its path is neither modified nor removed by the same full run. -/
theorem C2_hash_failure_survives (fs : CorpusFS) (cat : List FileRec) (now : Nat)
    (sp se : List String) (e : FSEntry) (r : FileRec)
    (hR : fs.rootIsDir = true) (hW : (walkedPaths fs sp se).Nodup)
    (he : e ∈ fs.entries) (helig : eligible sp se e = true) (hfail : e.hashOk = false)
    (hr : r ∈ cat) (hrp : r.file_path = joinPath e.path) :
    recsFor (index_corpus fs cat now sp se).1 (joinPath e.path) =
        recsFor cat (joinPath e.path) ∧
      r ∈ (index_corpus fs cat now sp se).1 := by
  have hmain := index_recsFor_hashfail fs cat now sp se e hR hW he helig hfail
  refine ⟨hmain, ?_⟩
  have hrin : r ∈ recsFor cat (joinPath e.path) :=
    List.mem_filter.mpr ⟨hr, by simp [hrp]⟩
  have : r ∈ recsFor (index_corpus fs cat now sp se).1 (joinPath e.path) := by
    rw [hmain]
    exact hrin
  exact List.mem_of_mem_filter this

/-- Witness for C2: the stale hash row for the unreadable `bad.md` survives
a full sync of the sample tree untouched. -/
theorem C2_witness :
    recsFor (index_corpus fsSample catSample 9 DEFAULT_SKIP_PATTERNS
        DEFAULT_SUPPORTED_EXTENSIONS).1 (joinPath entryBad.path) =
        recsFor catSample (joinPath entryBad.path) ∧
      recBad ∈ (index_corpus fsSample catSample 9 DEFAULT_SKIP_PATTERNS
        DEFAULT_SUPPORTED_EXTENSIONS).1 :=
  C2_hash_failure_survives fsSample catSample 9 _ _ entryBad recBad (by decide) (by decide)
    (by decide) (by decide) (by decide) (by decide) (by decide)

/-- C5 — deletion reconciliation is full-mode only: a full run drops every
row whose path was not walked and counts exactly those rows in `deleted`;
an incremental run keeps a row for every starting path (and its statistics
shape `StatsInc` has no `deleted` field at all). -/
theorem C5_deletion_full_only (fs : CorpusFS) (cat : List FileRec) (now : Nat)
    (sp se : List String) :
    (∀ r ∈ cat, (walkedPaths fs sp se).contains r.file_path = false →
        r ∉ (index_corpus fs cat now sp se).1) ∧
      ((index_corpus fs cat now sp se).2.deleted =
        (cat.filter (fun r => !(walkedPaths fs sp se).contains r.file_path)).length) ∧
      (∀ r ∈ cat, ∃ r2 ∈ (reindex_changed fs cat now sp se).1,
        r2.file_path = r.file_path) := by
  refine ⟨?_, ?_, ?_⟩
  · intro r _ hnc hin
    rw [index_corpus_fst] at hin
    have := (List.mem_filter.mp hin).2
    rw [hnc] at this
    cases this
  · rw [index_corpus_deleted]
    congr 1
    exact foldCat_filter_other now (fun s => !(walkedPaths fs sp se).contains s)
      (walk_corpus fs sp se)
      (fun m hm => by
        have hcm : (walkedPaths fs sp se).contains m.file_path = true :=
          contains_iff_mem.mpr (mem_walkedPaths.mpr ⟨m, hm, rfl⟩)
        simp only []
        rw [hcm]
        rfl)
      cat
  · intro r hr
    have hrin : r ∈ recsFor cat r.file_path := List.mem_filter.mpr ⟨hr, by simp⟩
    have hlen : 1 ≤ (recsFor cat r.file_path).length := by
      cases hrec : recsFor cat r.file_path with
      | nil => rw [hrec] at hrin; cases hrin
      | cons a l => simp
    have hlen2 : 1 ≤ (recsFor (reindex_changed fs cat now sp se).1 r.file_path).length := by
      rw [reindex_changed_fst]
      exact le_trans hlen (foldCat_recsFor_len now r.file_path _ cat)
    have hne : recsFor (reindex_changed fs cat now sp se).1 r.file_path ≠ [] := by
      intro hnil
      rw [hnil] at hlen2
      simp at hlen2
    obtain ⟨r2, hr2⟩ := List.exists_mem_of_ne_nil _ hne
    exact ⟨r2, List.mem_of_mem_filter hr2, recsFor_key _ _ r2 hr2⟩

/-- Witness for C5: the row for `gone.md` (missing on disk) is deleted by the
full run and counted once, while the incremental run keeps a row for it. -/
theorem C5_witness :
    recStale ∉ (index_corpus fsSample catSample 9 DEFAULT_SKIP_PATTERNS
        DEFAULT_SUPPORTED_EXTENSIONS).1 ∧
      (index_corpus fsSample catSample 9 DEFAULT_SKIP_PATTERNS
          DEFAULT_SUPPORTED_EXTENSIONS).2.deleted =
        (catSample.filter (fun r =>
          !(walkedPaths fsSample DEFAULT_SKIP_PATTERNS
              DEFAULT_SUPPORTED_EXTENSIONS).contains r.file_path)).length ∧
      (∃ r2 ∈ (reindex_changed fsSample catSample 9 DEFAULT_SKIP_PATTERNS
          DEFAULT_SUPPORTED_EXTENSIONS).1, r2.file_path = recStale.file_path) :=
  ⟨(C5_deletion_full_only fsSample catSample 9 _ _).1 recStale (by decide) (by decide),
    (C5_deletion_full_only fsSample catSample 9 _ _).2.1,
    (C5_deletion_full_only fsSample catSample 9 _ _).2.2 recStale (by decide)⟩

/-- C4 — counterexample to the claim as stated: with an eligible file
whose fingerprinting fails (a condition unchanged between runs), the second
full sync still counts the record in `total` but not in `unchanged`, so
`unchanged ≠ total_scanned`. -/
theorem C4_counterexample :
    ¬ ((index_corpus fsOnlyBad (index_corpus fsOnlyBad [] 0 DEFAULT_SKIP_PATTERNS
            DEFAULT_SUPPORTED_EXTENSIONS).1 1 DEFAULT_SKIP_PATTERNS
            DEFAULT_SUPPORTED_EXTENSIONS).2.unchanged =
        (index_corpus fsOnlyBad (index_corpus fsOnlyBad [] 0 DEFAULT_SKIP_PATTERNS
            DEFAULT_SUPPORTED_EXTENSIONS).1 1 DEFAULT_SKIP_PATTERNS
            DEFAULT_SUPPORTED_EXTENSIONS).2.total) := by
  decide

/-- C4 (amended) — idempotence of full sync: a second run with no
filesystem change leaves the catalog of the first run unmodified and yields
statistics `new = 0`, `updated = 0`, `deleted = 0`, `total` = number of
walked records, and `unchanged` = number of walked records whose
fingerprinting succeeds (equal to `total` when no fingerprinting fails). -/
theorem C4_idempotent (fs : CorpusFS) (cat : List FileRec) (now1 now2 : Nat)
    (sp se : List String) (hW : (walkedPaths fs sp se).Nodup) :
    (index_corpus fs (index_corpus fs cat now1 sp se).1 now2 sp se).1 =
        (index_corpus fs cat now1 sp se).1 ∧
      (index_corpus fs (index_corpus fs cat now1 sp se).1 now2 sp se).2 =
        { new := 0, updated := 0,
          unchanged := (walk_corpus fs sp se).countP (fun m => m.hashOk),
          deleted := 0, total := (walk_corpus fs sp se).length } := by
  have hfold := foldFull_frame now2 (walk_corpus fs sp se)
    ((index_corpus fs cat now1 sp se).1,
      { new := 0, updated := 0, unchanged := 0, deleted := 0, total := 0 })
    (fun m hm hok => index_run1_hash fs cat now1 sp se hW m hm hok)
  have hfold1 : foldCat now2 (index_corpus fs cat now1 sp se).1 (walk_corpus fs sp se) =
      (index_corpus fs cat now1 sp se).1 := by
    rw [← foldFull_fst now2 (walk_corpus fs sp se)
      ((index_corpus fs cat now1 sp se).1,
        { new := 0, updated := 0, unchanged := 0, deleted := 0, total := 0 }), hfold]
  have hfold2 := congrArg Prod.snd hfold
  constructor
  · rw [index_corpus_fst, hfold1, index_fst_filter_self]
  · apply Stats_ext
    · rw [(index_corpus_counts fs (index_corpus fs cat now1 sp se).1 now2 sp se).1, hfold2]
    · rw [(index_corpus_counts fs (index_corpus fs cat now1 sp se).1 now2 sp se).2.1, hfold2]
    · rw [(index_corpus_counts fs (index_corpus fs cat now1 sp se).1 now2 sp se).2.2, hfold2]
      simp
    · rw [index_corpus_deleted, hfold1, index_corpus_fst fs cat now1 sp se,
        filter_not_contains_of_filtered]
      rfl
    · rw [index_corpus_total]

/-- Witness for the amended C4 over the sample tree (one hash failure). -/
theorem C4_witness :
    (index_corpus fsSample (index_corpus fsSample [] 0 DEFAULT_SKIP_PATTERNS
          DEFAULT_SUPPORTED_EXTENSIONS).1 1 DEFAULT_SKIP_PATTERNS
          DEFAULT_SUPPORTED_EXTENSIONS).1 =
        (index_corpus fsSample [] 0 DEFAULT_SKIP_PATTERNS
          DEFAULT_SUPPORTED_EXTENSIONS).1 ∧
      (index_corpus fsSample (index_corpus fsSample [] 0 DEFAULT_SKIP_PATTERNS
            DEFAULT_SUPPORTED_EXTENSIONS).1 1 DEFAULT_SKIP_PATTERNS
            DEFAULT_SUPPORTED_EXTENSIONS).2 =
        { new := 0, updated := 0,
          unchanged := (walk_corpus fsSample DEFAULT_SKIP_PATTERNS
            DEFAULT_SUPPORTED_EXTENSIONS).countP (fun m => m.hashOk),
          deleted := 0,
          total := (walk_corpus fsSample DEFAULT_SKIP_PATTERNS
            DEFAULT_SUPPORTED_EXTENSIONS).length } :=
  C4_idempotent fsSample [] 0 1 DEFAULT_SKIP_PATTERNS DEFAULT_SUPPORTED_EXTENSIONS
    (by decide)

/-- C6 — the hash comparison is the sole trigger for `updated`: for a
record with an existing row, the per-file body classifies `updated` exactly
when the fresh digest differs from the stored one and `unchanged` exactly
when it matches (size and timestamps play no role in the test); and
concretely, changing a file's bytes between two full runs — timestamps and
size held constant in the entry — makes the second run count an update. -/
theorem C6_hash_sole_trigger (fs fs2 : CorpusFS) (cat : List FileRec)
    (now1 now2 : Nat) (sp se : List String) (e : FSEntry) (c2 : Nat)
    (hR : fs.rootIsDir = true) (hW : (walkedPaths fs sp se).Nodup)
    (hR2 : fs2.rootIsDir = true) (hW2 : (walkedPaths fs2 sp se).Nodup)
    (he : e ∈ fs.entries) (helig : eligible sp se e = true) (hok : e.hashOk = true)
    (he2 : { e with content := c2 } ∈ fs2.entries) (hne : c2 ≠ e.content) :
    (∀ (now : Nat) (c : List FileRec) (m : FileMeta) (r : FileRec), m.hashOk = true →
        c.find? (fun x => x.file_path == m.file_path) = some r →
        (((reconcileOne now c m).2 = .updated) ↔ ¬ r.file_hash = some m.content) ∧
          (((reconcileOne now c m).2 = .unchanged) ↔ r.file_hash = some m.content)) ∧
      1 ≤ (index_corpus fs2 (index_corpus fs cat now1 sp se).1 now2 sp se).2.updated := by
  constructor
  · intro now c m r hokm hf
    rw [find?_eq_head?_recsFor] at hf
    rw [reconcile_snd_eq]
    simp only [hokm, if_true, hf]
    by_cases hh : r.file_hash = some m.content
    · have hb : (r.file_hash == some m.content) = true := by simpa using hh
      simp [hb, hh]
    · have hb : (r.file_hash == some m.content) = false := by simpa using hh
      simp [hb, hh]
  · obtain ⟨r1, rest1, hrec1, hhash1⟩ :=
      index_run1_hash fs cat now1 sp se hW (toMeta e)
        (mem_walk_corpus.mpr ⟨hR, e, he, helig, rfl⟩) hok
    have helig2 : eligible sp se { e with content := c2 } = true := helig
    have hm2 : toMeta { e with content := c2 } ∈ walk_corpus fs2 sp se :=
      mem_walk_corpus.mpr ⟨hR2, { e with content := c2 }, he2, helig2, rfl⟩
    have hokm2 : (toMeta { e with content := c2 }).hashOk = true := hok
    have hrec1m : recsFor (index_corpus fs cat now1 sp se).1
        (toMeta { e with content := c2 }).file_path = r1 :: rest1 := hrec1
    have hhm : ¬ r1.file_hash = some (toMeta { e with content := c2 }).content := by
      rw [hhash1]
      intro hcontra
      exact hne (Option.some.inj hcontra).symm
    have hge := foldFull_updated_ge now2 (walk_corpus fs2 sp se)
      ((index_corpus fs cat now1 sp se).1,
        { new := 0, updated := 0, unchanged := 0, deleted := 0, total := 0 })
      (toMeta { e with content := c2 }) hW2 hm2 hokm2 r1 rest1 hrec1m hhm
    rw [(index_corpus_counts fs2 (index_corpus fs cat now1 sp se).1 now2 sp se).2.1]
    simpa using hge

/-- Witness for C6: modifying the bytes of `docs/a.md` (timestamps and size
identical) between two full syncs produces an `updated` count. -/
theorem C6_witness :
    1 ≤ (index_corpus fsSample2 (index_corpus fsSample [] 0 DEFAULT_SKIP_PATTERNS
        DEFAULT_SUPPORTED_EXTENSIONS).1 1 DEFAULT_SKIP_PATTERNS
        DEFAULT_SUPPORTED_EXTENSIONS).2.updated :=
  (C6_hash_sole_trigger fsSample fsSample2 [] 0 1 DEFAULT_SKIP_PATTERNS
    DEFAULT_SUPPORTED_EXTENSIONS entryDocsA 11 (by decide) (by decide) (by decide)
    (by decide) (by decide) (by decide) (by decide) (by decide) (by decide)).2

/-- C7 — frame condition for unchanged entries: when the fresh digest of
a walked file equals the stored hash of its first matching row, both sync
modes return that row list for the path verbatim (no field of the row, not
even `indexed_at`, changes) while counting the file among `unchanged`. -/
theorem C7_unchanged_frame (fs : CorpusFS) (cat : List FileRec) (now : Nat)
    (sp se : List String) (e : FSEntry) (r : FileRec) (rest : List FileRec)
    (hR : fs.rootIsDir = true) (hW : (walkedPaths fs sp se).Nodup)
    (he : e ∈ fs.entries) (helig : eligible sp se e = true) (hok : e.hashOk = true)
    (hrec : recsFor cat (joinPath e.path) = r :: rest)
    (hh : r.file_hash = some e.content) :
    recsFor (index_corpus fs cat now sp se).1 (joinPath e.path) = r :: rest ∧
      1 ≤ (index_corpus fs cat now sp se).2.unchanged ∧
      recsFor (reindex_changed fs cat now sp se).1 (joinPath e.path) = r :: rest ∧
      1 ≤ (reindex_changed fs cat now sp se).2.unchanged := by
  have hm : toMeta e ∈ walk_corpus fs sp se := mem_walk_corpus.mpr ⟨hR, e, he, helig, rfl⟩
  have hmp : (toMeta e).file_path = joinPath e.path := rfl
  have hc : (walkedPaths fs sp se).contains (joinPath e.path) = true :=
    contains_iff_mem.mpr (mem_walkedPaths.mpr ⟨toMeta e, hm, hmp⟩)
  have hf : (walk_corpus fs sp se).find? (fun x => x.file_path == joinPath e.path) =
      some (toMeta e) := find?_of_mem_nodup _ (toMeta e) hW hm
  have hokm : (toMeta e).hashOk = true := hok
  have hhm : r.file_hash = some (toMeta e).content := hh
  have hbm : (r.file_hash == some (toMeta e).content) = true := by simpa using hhm
  have hrecm : recsFor cat (toMeta e).file_path = r :: rest := hrec
  have heff : keyEffect now (toMeta e) (recsFor cat (joinPath e.path)) = r :: rest := by
    unfold keyEffect
    rw [hrec]
    simp only [hokm, if_true, hbm]
  refine ⟨?_, ?_, ?_, ?_⟩
  · rw [index_recsFor_char fs cat now sp se _ hW, if_pos hc, hf]
    exact heff
  · rw [(index_corpus_counts fs cat now sp se).2.2]
    have := foldFull_unchanged_ge now (walk_corpus fs sp se)
      (cat, { new := 0, updated := 0, unchanged := 0, deleted := 0, total := 0 })
      (toMeta e) hW hm hokm r rest hrecm hhm
    simpa using this
  · rw [reindex_recsFor_char fs cat now sp se _ hW, hf]
    exact heff
  · simp only [reindex_changed]
    have := foldInc_unchanged_ge now (walk_corpus fs sp se)
      (cat, { new := 0, updated := 0, unchanged := 0, total := 0 })
      (toMeta e) hW hm hokm r rest hrecm hhm
    simpa using this

/-- Witness for C7: a catalog row for `docs/a.md` whose stored hash matches
the file survives both sync modes byte-for-byte and is counted unchanged. -/
theorem C7_witness :
    recsFor (index_corpus fsSample [recDocsA] 9 DEFAULT_SKIP_PATTERNS
        DEFAULT_SUPPORTED_EXTENSIONS).1 (joinPath entryDocsA.path) = [recDocsA] ∧
      1 ≤ (index_corpus fsSample [recDocsA] 9 DEFAULT_SKIP_PATTERNS
          DEFAULT_SUPPORTED_EXTENSIONS).2.unchanged ∧
      recsFor (reindex_changed fsSample [recDocsA] 9 DEFAULT_SKIP_PATTERNS
          DEFAULT_SUPPORTED_EXTENSIONS).1 (joinPath entryDocsA.path) = [recDocsA] ∧
      1 ≤ (reindex_changed fsSample [recDocsA] 9 DEFAULT_SKIP_PATTERNS
          DEFAULT_SUPPORTED_EXTENSIONS).2.unchanged :=
  C7_unchanged_frame fsSample [recDocsA] 9 DEFAULT_SKIP_PATTERNS
    DEFAULT_SUPPORTED_EXTENSIONS entryDocsA recDocsA [] (by decide) (by decide)
    (by decide) (by decide) (by decide) (by decide) (by decide)

/-- C10 — statistics invariant for both modes: `total` counts every walked
record, while `new + updated + unchanged` counts only the records whose
fingerprinting succeeds (`total` minus the failures); and a hash-failed file
with no pre-existing row receives no row from the run. -/
theorem C10_stats_invariant (fs : CorpusFS) (cat : List FileRec) (now : Nat)
    (sp se : List String) (p : String) (hW : (walkedPaths fs sp se).Nodup) :
    ((index_corpus fs cat now sp se).2.new + (index_corpus fs cat now sp se).2.updated +
          (index_corpus fs cat now sp se).2.unchanged) +
        (walk_corpus fs sp se).countP (fun m => !m.hashOk) =
      (index_corpus fs cat now sp se).2.total ∧
    ((reindex_changed fs cat now sp se).2.new +
          (reindex_changed fs cat now sp se).2.updated +
          (reindex_changed fs cat now sp se).2.unchanged) +
        (walk_corpus fs sp se).countP (fun m => !m.hashOk) =
      (reindex_changed fs cat now sp se).2.total ∧
    ((∃ m ∈ walk_corpus fs sp se, m.file_path = p ∧ m.hashOk = false) →
      recsFor cat p = [] →
      (recsFor (index_corpus fs cat now sp se).1 p = [] ∧
        recsFor (reindex_changed fs cat now sp se).1 p = [])) := by
  refine ⟨?_, ?_, ?_⟩
  · have hsum := foldFull_sum now (walk_corpus fs sp se)
      (cat, { new := 0, updated := 0, unchanged := 0, deleted := 0, total := 0 })
    have hcnt := countP_hashOk_add (walk_corpus fs sp se)
    rw [(index_corpus_counts fs cat now sp se).1,
      (index_corpus_counts fs cat now sp se).2.1,
      (index_corpus_counts fs cat now sp se).2.2, index_corpus_total]
    simp only [] at hsum
    omega
  · have hsum := foldInc_sum now (walk_corpus fs sp se)
      (cat, { new := 0, updated := 0, unchanged := 0, total := 0 })
    have hcnt := countP_hashOk_add (walk_corpus fs sp se)
    rw [reindex_changed_total]
    simp only [reindex_changed]
    simp only [] at hsum
    omega
  · rintro ⟨m, hm, hmp, hfail⟩ hcat0
    have hf := find?_of_mem_nodup (walk_corpus fs sp se) m hW hm
    rw [hmp] at hf
    constructor
    · rw [index_recsFor_char fs cat now sp se p hW]
      have hc : (walkedPaths fs sp se).contains p = true :=
        contains_iff_mem.mpr (mem_walkedPaths.mpr ⟨m, hm, hmp⟩)
      rw [if_pos hc, hf]
      show keyEffect now m (recsFor cat p) = []
      rw [keyEffect_hashfail now m _ hfail]
      exact hcat0
    · rw [reindex_recsFor_char fs cat now sp se p hW, hf]
      show keyEffect now m (recsFor cat p) = []
      rw [keyEffect_hashfail now m _ hfail]
      exact hcat0

/-- Witness for C10 over the sample tree (one hash failure at `bad.md`). -/
theorem C10_witness :
    ((index_corpus fsSample [] 9 DEFAULT_SKIP_PATTERNS
            DEFAULT_SUPPORTED_EXTENSIONS).2.new +
          (index_corpus fsSample [] 9 DEFAULT_SKIP_PATTERNS
            DEFAULT_SUPPORTED_EXTENSIONS).2.updated +
          (index_corpus fsSample [] 9 DEFAULT_SKIP_PATTERNS
            DEFAULT_SUPPORTED_EXTENSIONS).2.unchanged) +
        (walk_corpus fsSample DEFAULT_SKIP_PATTERNS
          DEFAULT_SUPPORTED_EXTENSIONS).countP (fun m => !m.hashOk) =
      (index_corpus fsSample [] 9 DEFAULT_SKIP_PATTERNS
        DEFAULT_SUPPORTED_EXTENSIONS).2.total ∧
    recsFor (index_corpus fsSample [] 9 DEFAULT_SKIP_PATTERNS
        DEFAULT_SUPPORTED_EXTENSIONS).1 "bad.md" = [] ∧
    recsFor (reindex_changed fsSample [] 9 DEFAULT_SKIP_PATTERNS
        DEFAULT_SUPPORTED_EXTENSIONS).1 "bad.md" = [] := by
  refine ⟨(C10_stats_invariant fsSample [] 9 DEFAULT_SKIP_PATTERNS
      DEFAULT_SUPPORTED_EXTENSIONS "bad.md" (by decide)).1, ?_, ?_⟩
  · exact ((C10_stats_invariant fsSample [] 9 DEFAULT_SKIP_PATTERNS
      DEFAULT_SUPPORTED_EXTENSIONS "bad.md" (by decide)).2.2 (by decide) (by decide)).1
  · exact ((C10_stats_invariant fsSample [] 9 DEFAULT_SKIP_PATTERNS
      DEFAULT_SUPPORTED_EXTENSIONS "bad.md" (by decide)).2.2 (by decide) (by decide)).2

end KnowledgeMiner
